import Mathlib

/-!
Verification of the Syft pooled-asset vault contracts (Rust / Soroban).

The Rust sources under `src/contracts/soroban/src/` are shallowly embedded:
machine integers `i128` become `Int` with explicit range checks mirroring
Rust's `checked_*` arithmetic, `u64` timestamps become `Nat`, Soroban
`Address` values become `Nat`, contract storage becomes an explicit
`Storage` record, and every external contract call (token transfer, pool
swap, factory lookup, staking pool) is recorded in an effect trace or
answered by an explicit environment of oracles.  Rust `/` on `i128`
truncates toward zero, so it is embedded as `Int.tdiv`.
-/

namespace Syft

/-- Smallest `i128` value, `-2^127`. -/
def I128_MIN : Int := -170141183460469231731687303715884105728

/-- Largest `i128` value, `2^127 - 1`. -/
def I128_MAX : Int := 170141183460469231731687303715884105727

/-- Whether an unbounded integer is representable as an `i128`. -/
def inI128 (x : Int) : Bool := decide (I128_MIN ≤ x) && decide (x ≤ I128_MAX)

/-- Rust `i128::checked_add`. -/
def checked_add (a b : Int) : Option Int :=
  if inI128 (a + b) then some (a + b) else none

/-- Rust `i128::checked_sub`. -/
def checked_sub (a b : Int) : Option Int :=
  if inI128 (a - b) then some (a - b) else none

/-- Rust `i128::checked_mul`. -/
def checked_mul (a b : Int) : Option Int :=
  if inI128 (a * b) then some (a * b) else none

/-- Rust `i128::checked_div`: `None` on division by zero or on the single
overflowing case `MIN / -1`; otherwise truncating division. -/
def checked_div (a b : Int) : Option Int :=
  if b = 0 then none
  else if a = I128_MIN && b = -1 then none
  else some (a.tdiv b)

/-- Rust wrapping cast `x as u64` applied to an `i128` value: the low 64
bits interpreted as an unsigned integer, i.e. `x mod 2^64`. -/
def as_u64 (x : Int) : Nat := (x % 18446744073709551616).toNat

/-- Soroban addresses, abstracted to natural numbers. -/
abbrev Address := Nat

/-- The vault's own contract address (`env.current_contract_address()`). -/
def current_contract_address : Address := 0

/-- `VaultError` from `errors.rs`. -/
inductive VaultError where
  | AlreadyInitialized
  | NotInitialized
  | Unauthorized
  | InsufficientBalance
  | InsufficientShares
  | InvalidAmount
  | InvalidConfiguration
  | RebalanceFailed
  | TransferFailed
  | NFTNotFound
  | InvalidOwnership
  | OwnershipExceeded
  | SlippageTooHigh
  | SwapFailed
  | PoolNotFound
  | InsufficientLiquidity
  | RouterNotSet
deriving DecidableEq, Repr

/-- `RebalanceRule` from `types.rs`. -/
structure RebalanceRule where
  condition_type : String
  threshold : Int
  action : String
  target_allocation : List Int
deriving DecidableEq, Repr

/-- `VaultConfig` from `types.rs`. -/
structure VaultConfig where
  owner : Address
  name : String
  assets : List Address
  rules : List RebalanceRule
  router_address : Option Address
  staking_pool_address : Option Address
  factory_address : Option Address
deriving DecidableEq, Repr

/-- `VaultState` from `types.rs`. -/
structure VaultState where
  total_shares : Int
  total_value : Int
  last_rebalance : Nat
deriving DecidableEq, Repr

/-- `UserPosition` from `types.rs`. -/
structure UserPosition where
  shares : Int
  last_deposit : Nat
deriving DecidableEq, Repr

/-- `StakingPosition` from `types.rs`. -/
structure StakingPosition where
  staking_pool : Address
  original_token : Address
  staked_amount : Int
  st_token_amount : Int
  timestamp : Nat
deriving DecidableEq, Repr

/-- The vault contract's instance storage: the `CONFIG` and `STATE` slots
and the `(POSITION, user)`-keyed per-user records (an association list
with at most one record per user), plus the `"stake_position"` slot. -/
structure Storage where
  config : Option VaultConfig
  state : Option VaultState
  positions : List (Address × UserPosition)
  stakingPosition : Option StakingPosition
deriving DecidableEq, Repr

/-- Storage with nothing written yet. -/
def emptyStorage : Storage :=
  { config := none, state := none, positions := [], stakingPosition := none }

/-- Observable actions of one contract call: real token transfers issued
through the SDK `TokenClient`, direct pool `swap` invocations, and emitted
events (modelled by their topic name only; no claim inspects payloads). -/
inductive Effect where
  | transfer (token from_a to_a : Address) (amount : Int)
  | poolSwap (pool : Address) (amount0_out amount1_out : Int) (to_a : Address)
  | event (name : String)
deriving DecidableEq, Repr

/-- Storage-map write `set(&(POSITION, user), &p)`: replaces the record
keyed by `user`, or appends a fresh one. -/
def setPos : List (Address × UserPosition) → Address → UserPosition →
    List (Address × UserPosition)
  | [], u, p => [(u, p)]
  | (k, q) :: t, u, p => if k = u then (u, p) :: t else (k, q) :: setPos t u p

/-- Storage-map delete `remove(&(POSITION, user))`. -/
def removePos : List (Address × UserPosition) → Address →
    List (Address × UserPosition)
  | [], _ => []
  | (k, q) :: t, u => if k = u then t else (k, q) :: removePos t u

/-- `get_position` from `vault.rs`: stored record or the zero default. -/
def get_position (stg : Storage) (user : Address) : UserPosition :=
  (stg.positions.lookup user).getD { shares := 0, last_deposit := 0 }

/-- Total shares recorded across all stored user positions. -/
def sumShares (ps : List (Address × UserPosition)) : Int :=
  ps.foldr (fun p acc => p.2.shares + acc) 0

/-! ### token_client.rs -/

/-- `get_balance` from `token_client.rs`: the MVP stub returns `0` for
every token and holder (the production SDK call is commented out in the
source). -/
def get_balance (token addr : Address) : Int := 0

/-- `get_vault_balance` from `token_client.rs`. -/
def get_vault_balance (token : Address) : Int :=
  get_balance token current_contract_address

/-- `transfer_tokens` from `token_client.rs`: validates the amount and
returns `Ok(())`; the MVP stub performs no actual movement. -/
def transfer_tokens (token from_a to_a : Address) (amount : Int) :
    Except VaultError Unit :=
  if amount ≤ 0 then .error .InvalidAmount else .ok ()

/-- `approve_router` from `token_client.rs`: validates the amount; the
MVP stub performs no approval call. -/
def approve_router (token router : Address) (amount : Int) :
    Except VaultError Unit :=
  if amount ≤ 0 then .error .InvalidAmount else .ok ()

/-! ### External-contract environment

Pool contracts, the pool factory and staking pools are external
collaborators (spec section 6); their observable answers are supplied by
an oracle environment.  The vault's own arithmetic on those answers stays
in the embedding. -/

/-- A liquidity pool's token pair and reserves as reported by the pool
contract (`token_0`, `token_1`, `get_reserves`). -/
structure PoolInfo where
  token0 : Address
  token1 : Address
  reserve0 : Int
  reserve1 : Int
deriving DecidableEq, Repr

/-- Oracles answering the external contract calls the vault makes. -/
structure ExtEnv where
  /-- Factory `get_pair(token_a, token_b)` keyed by factory address. -/
  pairFor : Address → Address → Address → Address
  /-- Pool client views `token_0`, `token_1`, `get_reserves`. -/
  poolInfo : Address → PoolInfo
  /-- Staking pool `deposit(sender, amount)` result (st tokens minted). -/
  stakeDeposit : Address → Int → Int

/-- `get_pool_for_pair` from `pool_client.rs`: wraps the factory call and
always returns `Ok`. -/
def get_pool_for_pair (ext : ExtEnv) (factory token_a token_b : Address) :
    Except VaultError Address :=
  .ok (ext.pairFor factory token_a token_b)

/-- `get_soroswap_factory_address` from `swap_router.rs`: a fixed,
network-known factory address. -/
def soroswap_factory_address : Address := 7771

/-! ### AMM swap math (pool_client.rs) -/

/-- Core of `calculate_swap_output` from `pool_client.rs` (lines 164-179),
after the pool's reserves have been oriented into `(reserve_in,
reserve_out)`:
`amount_out = (amount_in*997 * reserve_out) / (reserve_in*1000 + amount_in*997)`
with checked multiplications/additions and a final truncating division. -/
def swap_output_math (reserve_in reserve_out amount_in : Int) :
    Except VaultError Int :=
  match checked_mul amount_in 997 with
  | none => .error .InvalidAmount
  | some amount_in_with_fee =>
    match checked_mul amount_in_with_fee reserve_out with
    | none => .error .InvalidAmount
    | some numerator =>
      match (checked_mul reserve_in 1000).bind
          (fun v => checked_add v amount_in_with_fee) with
      | none => .error .InvalidAmount
      | some denominator => .ok (numerator.tdiv denominator)

/-- `calculate_swap_output` from `pool_client.rs` at the reserve level:
the pool-client prologue resolves `from_token`/`to_token` into oriented
reserves `(reserve_in, reserve_out)`; the arithmetic after that point is
embedded here, including the initial amount validation. -/
def calculate_swap_output (reserve_in reserve_out amount_in : Int) :
    Except VaultError Int :=
  if amount_in ≤ 0 then .error .InvalidAmount
  else swap_output_math reserve_in reserve_out amount_in

/-- `calculate_swap_output` from `pool_client.rs` in full: queries the
pool for its token pair and reserves, orients them by `from_token`, and
applies the constant-product formula. -/
def calculate_swap_output_pool (ext : ExtEnv)
    (pool from_token to_token : Address) (amount_in : Int) :
    Except VaultError Int :=
  if amount_in ≤ 0 then .error .InvalidAmount
  else
    let info := ext.poolInfo pool
    if from_token = info.token0 then
      swap_output_math info.reserve0 info.reserve1 amount_in
    else if from_token = info.token1 then
      swap_output_math info.reserve1 info.reserve0 amount_in
    else .error .InvalidConfiguration

/-- `calculate_swap_input` from `pool_client.rs` at the reserve level:
`amount_in = (reserve_in * amount_out * 1000) / ((reserve_out - amount_out) * 997) + 1`
with the initial amount validation and the pool-drain guard
`amount_out_desired >= reserve_out`. -/
def calculate_swap_input (reserve_in reserve_out amount_out_desired : Int) :
    Except VaultError Int :=
  if amount_out_desired ≤ 0 then .error .InvalidAmount
  else if reserve_out ≤ amount_out_desired then .error .InvalidAmount
  else
    match (checked_mul reserve_in amount_out_desired).bind
        (fun v => checked_mul v 1000) with
    | none => .error .InvalidAmount
    | some numerator =>
      match (checked_sub reserve_out amount_out_desired).bind
          (fun v => checked_mul v 997) with
      | none => .error .InvalidAmount
      | some denominator =>
        match checked_add (numerator.tdiv denominator) 1 with
        | none => .error .InvalidAmount
        | some amount_in => .ok amount_in

/-- `swap_via_pool` from `pool_client.rs`: orients the pool's reserves,
prices the swap with the constant-product formula, enforces
`min_amount_out`, transfers the input leg to the pool (the MVP
`transfer_tokens` stub) and invokes the pool's `swap` entrypoint.
Returns the output amount together with the observable effects. -/
def swap_via_pool (ext : ExtEnv) (pool from_token to_token : Address)
    (amount_in min_amount_out : Int) :
    Except VaultError (Int × List Effect) :=
  if amount_in ≤ 0 then .error .InvalidAmount
  else
    let info := ext.poolInfo pool
    match
      (if from_token = info.token0 then some true
       else if from_token = info.token1 then some false
       else none) with
    | none => .error .InvalidConfiguration
    | some is_token0_in =>
      let reserve_in := if is_token0_in then info.reserve0 else info.reserve1
      let reserve_out := if is_token0_in then info.reserve1 else info.reserve0
      match swap_output_math reserve_in reserve_out amount_in with
      | .error e => .error e
      | .ok amount_out =>
        if amount_out < min_amount_out then .error .SlippageTooHigh
        else
          match transfer_tokens from_token current_contract_address pool
              amount_in with
          | .error e => .error e
          | .ok _ =>
            let amount0_out := if is_token0_in then 0 else amount_out
            let amount1_out := if is_token0_in then amount_out else 0
            .ok (amount_out,
              [Effect.poolSwap pool amount0_out amount1_out
                current_contract_address])

/-- `swap_via_router` from `swap_router.rs`: resolves the pool through
the fixed factory address and swaps directly through the pool (the router
fallback branch is unreachable because `get_pool_for_pair` always
returns `Ok`). -/
def swap_via_router (ext : ExtEnv) (router from_token to_token : Address)
    (amount_in min_amount_out : Int) :
    Except VaultError (Int × List Effect) :=
  if amount_in ≤ 0 then .error .InvalidAmount
  else
    match get_pool_for_pair ext soroswap_factory_address from_token
        to_token with
    | .error e => .error e
    | .ok pool =>
      swap_via_pool ext pool from_token to_token amount_in min_amount_out

/-! ### engine.rs -/

/-- Substring test on character lists (Rust `str::contains` with a string
pattern). -/
def listContainsSub : List Char → List Char → Bool
  | l, pat =>
    if pat.isPrefixOf l then true
    else
      match l with
      | [] => false
      | _ :: t => listContainsSub t pat

/-- Rust `String::contains(pattern)`. -/
def strContains (s pat : String) : Bool := listContainsSub s.data pat.data

/-- `evaluate_time_condition` from `engine.rs`: reads `STATE` (defaulting
to the zero state), computes the saturating elapsed time
`current_timestamp - last_rebalance`, and compares it with
`rule.threshold as u64` (a wrapping `i128 -> u64` cast). -/
def evaluate_time_condition (stg : Storage) (rule : RebalanceRule)
    (now : Nat) : Bool :=
  let state := stg.state.getD
    { total_shares := 0, total_value := 0, last_rebalance := 0 }
  let time_elapsed := now - state.last_rebalance
  time_elapsed ≥ as_u64 rule.threshold

/-- `evaluate_apy_condition` from `engine.rs` (MVP placeholder). -/
def evaluate_apy_condition (stg : Storage) (rule : RebalanceRule) : Bool :=
  decide (rule.threshold > 0) && decide (rule.threshold < 1000000)

/-- `evaluate_allocation_condition` from `engine.rs` (MVP placeholder). -/
def evaluate_allocation_condition (stg : Storage) (rule : RebalanceRule) :
    Bool :=
  let state := stg.state.getD
    { total_shares := 0, total_value := 0, last_rebalance := 0 }
  state.total_value > 0

/-- `evaluate_price_condition` from `engine.rs` (MVP placeholder). -/
def evaluate_price_condition (stg : Storage) (rule : RebalanceRule) : Bool :=
  rule.threshold > 0

/-- `evaluate_single_rule` from `engine.rs`: dispatches on which known
condition keyword the rule's `condition_type` contains, in source
order. -/
def evaluate_single_rule (stg : Storage) (rule : RebalanceRule)
    (now : Nat) : Bool :=
  if strContains rule.condition_type "time" then
    evaluate_time_condition stg rule now
  else if strContains rule.condition_type "apy" then
    evaluate_apy_condition stg rule
  else if strContains rule.condition_type "allocation" then
    evaluate_allocation_condition stg rule
  else if strContains rule.condition_type "price" then
    evaluate_price_condition stg rule
  else false

/-- `evaluate_rules` from `engine.rs`: short-circuit OR over the rules. -/
def evaluate_rules (stg : Storage) (rules : List RebalanceRule)
    (now : Nat) : Bool :=
  rules.any (fun rule => evaluate_single_rule stg rule now)

/-- `should_rebalance` from `engine.rs`: `false` when no config is
stored. -/
def should_rebalance (stg : Storage) (now : Nat) : Bool :=
  match stg.config with
  | some cfg => evaluate_rules stg cfg.rules now
  | none => false

/-! ### rebalance.rs -/

/-- Checked accumulation of the `target_allocation` entries
(`execute_rebalance_action`, first validation loop). -/
def allocation_sum_from (acc : Int) : List Int → Option Int
  | [] => some acc
  | a :: rest =>
    match checked_add acc a with
    | none => none
    | some acc' => allocation_sum_from acc' rest

/-- Sum of a rule's target allocation with checked additions. -/
def allocation_sum (alloc : List Int) : Option Int :=
  allocation_sum_from 0 alloc

/-- Per-asset target amounts
`target_amount = total_value * target_pct / 100_0000`
(`execute_rebalance_action`, balance/target loop), with checked
multiplication and division. -/
def compute_targets (total_value : Int) : List Int → Option (List Int)
  | [] => some []
  | pct :: rest =>
    match (checked_mul total_value pct).bind
        (fun v => checked_div v 1000000) with
    | none => none
    | some t =>
      match compute_targets total_value rest with
      | none => none
      | some ts => some (t :: ts)

/-- The tolerance scan of `execute_rebalance_action`: some asset's
`|current - target|` exceeds the tolerance. -/
def needs_rebalance (balances targets : List Int) (tolerance : Int) : Bool :=
  (balances.zip targets).any (fun p =>
    (if p.1 > p.2 then p.1 - p.2 else p.2 - p.1) > tolerance)

/-- Inner loop of `execute_rebalance_action`: scan candidate source
assets `j` for a surplus, swap `min(deficit, excess)` from the first one
found, update the in-memory balance snapshot for both sides and break.
Returns the updated balances and the effects of the executed swap (if
any). -/
def rebalance_find_source (ext : ExtEnv) (router : Address)
    (assets : List Address) (targets : List Int) (balances : List Int)
    (i : Nat) (asset : Address) (current diff : Int) :
    List Nat → Except VaultError (List Int × List Effect)
  | [] => .ok (balances, [])
  | j :: js =>
    if i = j then
      rebalance_find_source ext router assets targets balances i asset
        current diff js
    else
      match assets.get? j, balances.get? j, targets.get? j with
      | some source_asset, some source_current, some source_target =>
        if source_current > source_target then
          let excess := source_current - source_target
          let amount_to_swap := if diff < excess then diff else excess
          if amount_to_swap ≤ 0 then
            rebalance_find_source ext router assets targets balances i
              asset current diff js
          else
            match get_pool_for_pair ext soroswap_factory_address
                source_asset asset with
            | .error e => .error e
            | .ok pool =>
              match calculate_swap_output_pool ext pool source_asset asset
                  amount_to_swap with
              | .error e => .error e
              | .ok expected_output =>
                let min_amount_out := (expected_output * 95).tdiv 100
                match approve_router source_asset router amount_to_swap with
                | .error e => .error e
                | .ok _ =>
                  match swap_via_router ext router source_asset asset
                      amount_to_swap min_amount_out with
                  | .error e => .error e
                  | .ok (amount_out, effs) =>
                    .ok ((balances.set j (source_current - amount_to_swap)
                            ).set i (current + amount_out),
                         effs)
        else
          rebalance_find_source ext router assets targets balances i asset
            current diff js
      | _, _, _ =>
        rebalance_find_source ext router assets targets balances i asset
          current diff js

/-- Outer loop of `execute_rebalance_action`: walk the assets, skip those
within tolerance, and correct each deficit from the first surplus
source, threading the updated balance snapshot. -/
def rebalance_correct (ext : ExtEnv) (router : Address)
    (assets : List Address) (targets : List Int) (tolerance : Int) :
    List Nat → List Int → Except VaultError (List Int × List Effect)
  | [], balances => .ok (balances, [])
  | i :: is', balances =>
    match assets.get? i, balances.get? i, targets.get? i with
    | some asset, some current, some target =>
      let diff := target - current
      if |diff| ≤ tolerance then
        rebalance_correct ext router assets targets tolerance is' balances
      else if diff > 0 then
        match rebalance_find_source ext router assets targets balances i
            asset current diff (List.range assets.length) with
        | .error e => .error e
        | .ok (balances', effs) =>
          match rebalance_correct ext router assets targets tolerance is'
              balances' with
          | .error e => .error e
          | .ok (balances'', effs') => .ok (balances'', effs ++ effs')
      else
        rebalance_correct ext router assets targets tolerance is' balances
    | _, _, _ =>
      rebalance_correct ext router assets targets tolerance is' balances

/-- `execute_rebalance_action` from `rebalance.rs`, with the balance
query `get_vault_balance` abstracted as `bal` (the token-interface
boundary of spec section 6; the source's MVP stub is
`fun asset => get_vault_balance asset`).  Validates the allocation,
requires a router, computes per-asset targets and the 1% tolerance
`total_value / 100`, skips as a no-op when every asset is within
tolerance (emitting only the `reb_skip` log event), and otherwise
executes the greedy deficit/surplus swaps.  The returned list holds the
observable effects. -/
def execute_rebalance_action_with (ext : ExtEnv) (bal : Address → Int)
    (cfg : VaultConfig) (rule : RebalanceRule) (assets : List Address)
    (total_value : Int) : Except VaultError (List Effect) :=
  if rule.target_allocation.length ≠ assets.length then
    .error .InvalidConfiguration
  else
    match allocation_sum rule.target_allocation with
    | none => .error .InvalidConfiguration
    | some total_allocation =>
      if total_allocation ≠ 1000000 ∧ total_allocation ≠ 0 then
        .error .InvalidConfiguration
      else
        match cfg.router_address with
        | none => .error .InvalidConfiguration
        | some router =>
          match compute_targets total_value rule.target_allocation with
          | none => .error .InvalidAmount
          | some targets =>
            let current_balances := assets.map bal
            let tolerance := total_value.tdiv 100
            if needs_rebalance current_balances targets tolerance then
              match rebalance_correct ext router assets targets tolerance
                  (List.range assets.length) current_balances with
              | .error e => .error e
              | .ok (_, effs) => .ok (Effect.event "reb_exec" :: effs)
            else
              .ok [Effect.event "reb_skip"]

/-- `execute_rebalance_action` exactly as in the source: balances come
from the `get_vault_balance` MVP stub. -/
def execute_rebalance_action (ext : ExtEnv) (cfg : VaultConfig)
    (rule : RebalanceRule) (assets : List Address) (total_value : Int) :
    Except VaultError (List Effect) :=
  execute_rebalance_action_with ext (fun asset => get_vault_balance asset)
    cfg rule assets total_value

/-- `execute_stake_action` from `rebalance.rs`: computes
`stake_amount = total_value * rule.threshold / 100_0000`, checks it
against `total_value` and against the vault's custodied balance of the
first asset, stakes through the staking pool and records a
`StakingPosition` snapshot. -/
def execute_stake_action (ext : ExtEnv) (stg : Storage)
    (rule : RebalanceRule) (assets : List Address) (total_value : Int)
    (now : Nat) : Except VaultError (Storage × List Effect) :=
  if assets.isEmpty then .error .InvalidConfiguration
  else
    match (checked_mul total_value rule.threshold).bind
        (fun v => checked_div v 1000000) with
    | none => .error .InvalidAmount
    | some stake_amount =>
      if stake_amount > total_value then .error .InsufficientBalance
      else
        match assets.head? with
        | none => .error .InvalidConfiguration
        | some staking_token =>
          let balance := get_vault_balance staking_token
          if stake_amount > balance then .error .InsufficientBalance
          else
            match stg.config with
            | none => .error .NotInitialized
            | some config =>
              match config.staking_pool_address with
              | none => .error .InvalidConfiguration
              | some staking_pool =>
                -- staking_client::stake_tokens
                if stake_amount ≤ 0 then .error .InvalidAmount
                else
                  match transfer_tokens staking_token
                      current_contract_address staking_pool stake_amount with
                  | .error e => .error e
                  | .ok _ =>
                    let st_tokens_received :=
                      ext.stakeDeposit staking_pool stake_amount
                    if st_tokens_received ≤ 0 then .error .InvalidAmount
                    else
                      let position : StakingPosition :=
                        { staking_pool := staking_pool,
                          original_token := staking_token,
                          staked_amount := stake_amount,
                          st_token_amount := st_tokens_received,
                          timestamp := now }
                      .ok ({ stg with stakingPosition := some position },
                           [Effect.event "tokens_staked"])

/-- The `rebalance`-action filter loop of `execute_rebalance_only`. -/
def rebalance_rules_loop (ext : ExtEnv) (bal : Address → Int)
    (cfg : VaultConfig) (assets : List Address) (total_value : Int) :
    List RebalanceRule → Except VaultError (List Effect)
  | [] => .ok []
  | rule :: rest =>
    if rule.action = "rebalance" then
      match execute_rebalance_action_with ext bal cfg rule assets
          total_value with
      | .error e => .error e
      | .ok effs =>
        match rebalance_rules_loop ext bal cfg assets total_value rest with
        | .error e => .error e
        | .ok effs' => .ok (effs ++ effs')
    else rebalance_rules_loop ext bal cfg assets total_value rest

/-- `execute_rebalance_only` from `rebalance.rs`: logs `reb_start`,
requires a non-zero `total_value`, and runs every rule whose action is
`"rebalance"`. -/
def execute_rebalance_only (ext : ExtEnv) (bal : Address → Int)
    (stg : Storage) : Except VaultError (List Effect) :=
  match stg.config with
  | none => .error .NotInitialized
  | some config =>
    match stg.state with
    | none => .error .NotInitialized
    | some state =>
      if state.total_value = 0 then .error .InsufficientBalance
      else
        match rebalance_rules_loop ext bal config config.assets
            state.total_value config.rules with
        | .error e => .error e
        | .ok effs => .ok (Effect.event "reb_start" :: effs)

/-! ### vault.rs

Each public entrypoint runs to completion or fails atomically: an error
return aborts the transaction and the host rolls back every storage
mutation, token transfer and emitted event of the call (spec sections 5
and 7).  The embedding therefore computes the success result together
with its effects, and the `run_*` wrappers discard all effects and keep
the pre-state when the entrypoint returns an error. -/

/-- `initialize` from `vault.rs`. -/
def init_vault (stg : Storage) (config : VaultConfig) (now : Nat) :
    Except VaultError Storage :=
  match stg.config with
  | some _ => .error .AlreadyInitialized
  | none =>
    if config.assets.isEmpty then .error .InvalidConfiguration
    else
      .ok { stg with
        config := some config,
        state := some
          { total_shares := 0, total_value := 0, last_rebalance := now } }

/-- Tail of `deposit_with_token` from `vault.rs` (from the `STATE` read
onward): mint shares 1:1 on the very first deposit, otherwise
`final_amount * total_shares / total_value` with checked arithmetic;
add the minted shares and the (post-conversion) amount to the vault
totals and to the caller's position. -/
def deposit_finish (stg : Storage) (user : Address) (position : UserPosition)
    (final_amount : Int) (now : Nat) (effs : List Effect) :
    Except VaultError (Int × Storage × List Effect) :=
  match stg.state with
  | none => .error .NotInitialized
  | some state =>
    let sharesOpt : Option Int :=
      if state.total_shares = 0 then some final_amount
      else (checked_mul final_amount state.total_shares).bind
        (fun v => checked_div v state.total_value)
    match sharesOpt with
    | none => .error .InvalidAmount
    | some shares =>
      match checked_add state.total_shares shares with
      | none => .error .InvalidAmount
      | some ts' =>
        match checked_add state.total_value final_amount with
        | none => .error .InvalidAmount
        | some tv' =>
          match checked_add position.shares shares with
          | none => .error .InvalidAmount
          | some ps' =>
            let state' : VaultState :=
              { total_shares := ts', total_value := tv',
                last_rebalance := state.last_rebalance }
            let position' : UserPosition :=
              { shares := ps', last_deposit := now }
            .ok (shares,
              { stg with
                state := some state',
                positions := setPos stg.positions user position' },
              effs ++ [Effect.event "deposit"])

/-- `deposit_with_token` from `vault.rs`: authorization, initialization
and amount checks, transfer of the deposit token into vault custody,
auto-swap to the base asset when the deposit token differs (failing with
`RouterNotSet` when no router is configured), then share minting and
state/position updates.  The interleaved `debug` log events of the
source are recorded in the trace. -/
def deposit_with_token (ext : ExtEnv) (stg : Storage) (user : Address)
    (amount : Int) (deposit_token : Address) (now : Nat) :
    Except VaultError (Int × Storage × List Effect) :=
  -- user.require_auth(): granted by the host for the modelled call
  if stg.config.isNone then .error .NotInitialized
  else if amount ≤ 0 then .error .InvalidAmount
  else
    let position := get_position stg user
    match stg.config with
    | none => .error .NotInitialized
    | some config =>
      match config.assets.head? with
      | none => .error .InvalidConfiguration
      | some base_token =>
        let effs0 : List Effect :=
          [Effect.event "start", Effect.event "auth_ok",
           Effect.event "init_ok", Effect.event "amt_ok",
           Effect.event "pos_ok", Effect.event "cfg_ok",
           Effect.event "tok_ok", Effect.event "addr_ok",
           Effect.event "b4_xfer",
           Effect.transfer deposit_token user current_contract_address
             amount,
           Effect.event "xfer_ok"]
        if deposit_token ≠ base_token then
          match config.router_address with
          | none => .error .RouterNotSet
          | some router =>
            match swap_via_router ext router deposit_token base_token
                amount 0 with
            | .error e => .error e
            | .ok res =>
              -- res = (swapped_amount, swap effects)
              deposit_finish stg user position res.1 now
                (effs0 ++ [Effect.event "swap_req", Effect.event "swap_go"]
                  ++ res.2 ++ [Effect.event "swap_ok"])
        else
          deposit_finish stg user position amount now effs0

/-- `withdraw` from `vault.rs`: authorization and share checks, burn
computation `shares * total_value / total_shares` with checked
arithmetic, base-asset transfer back to the user, and state/position
decrements, deleting the position record when it reaches zero. -/
def withdraw (stg : Storage) (user : Address) (shares : Int) :
    Except VaultError (Int × Storage × List Effect) :=
  -- user.require_auth(): granted by the host for the modelled call
  if stg.config.isNone then .error .NotInitialized
  else if shares ≤ 0 then .error .InvalidAmount
  else
    let position := get_position stg user
    if position.shares < shares then .error .InsufficientShares
    else
      match stg.state with
      | none => .error .NotInitialized
      | some state =>
        if state.total_shares = 0 then .error .InvalidAmount
        else
          match (checked_mul shares state.total_value).bind
              (fun v => checked_div v state.total_shares) with
          | none => .error .InvalidAmount
          | some amount =>
            match stg.config with
            | none => .error .NotInitialized
            | some config =>
              match config.assets.head? with
              | none => .error .InvalidConfiguration
              | some base_token =>
                match checked_sub state.total_shares shares with
                | none => .error .InvalidAmount
                | some ts' =>
                  match checked_sub state.total_value amount with
                  | none => .error .InvalidAmount
                  | some tv' =>
                    match checked_sub position.shares shares with
                    | none => .error .InvalidAmount
                    | some ps' =>
                      let state' : VaultState :=
                        { state with total_shares := ts',
                                     total_value := tv' }
                      let positions' :=
                        if ps' = 0 then removePos stg.positions user
                        else setPos stg.positions user
                          { position with shares := ps' }
                      .ok (amount,
                        { stg with state := some state',
                                   positions := positions' },
                        [Effect.transfer base_token
                           current_contract_address user amount,
                         Effect.event "withdraw"])

/-- `trigger_rebalance` from `vault.rs`: permissionless; a success no-op
when the rule engine does not fire, otherwise runs the
`rebalance`-action executor and stamps `last_rebalance`. -/
def trigger_rebalance (ext : ExtEnv) (bal : Address → Int) (stg : Storage)
    (now : Nat) : Except VaultError (Storage × List Effect) :=
  if stg.config.isNone then .error .NotInitialized
  else if ¬ should_rebalance stg now then .ok (stg, [])
  else
    match stg.config with
    | none => .error .NotInitialized
    | some _config =>
      match stg.state with
      | none => .error .NotInitialized
      | some state =>
        match execute_rebalance_only ext bal stg with
        | .error e => .error e
        | .ok effs =>
          let state' := { state with last_rebalance := now }
          .ok ({ stg with state := some state' },
               effs ++ [Effect.event "rebalance"])

/-- `get_state` from `vault.rs`: the stored state or the zero default. -/
def get_state (stg : Storage) : VaultState :=
  stg.state.getD { total_shares := 0, total_value := 0, last_rebalance := 0 }

/-- Transaction wrapper for `deposit_with_token`: on error the host
rolls back, so the pre-state is kept and no effect is observable. -/
def run_deposit_with_token (ext : ExtEnv) (stg : Storage) (user : Address)
    (amount : Int) (deposit_token : Address) (now : Nat) :
    Except VaultError Int × Storage × List Effect :=
  match deposit_with_token ext stg user amount deposit_token now with
  | .ok (shares, stg', effs) => (.ok shares, stg', effs)
  | .error e => (.error e, stg, [])

/-- Transaction wrapper for `withdraw` (rollback on error). -/
def run_withdraw (stg : Storage) (user : Address) (shares : Int) :
    Except VaultError Int × Storage × List Effect :=
  match withdraw stg user shares with
  | .ok (amount, stg', effs) => (.ok amount, stg', effs)
  | .error e => (.error e, stg, [])

/-! ### Call sequences -/

/-- One external call to the share-accounting surface.  A deposit carries
the ledger timestamp and the oracle environment answering any auto-swap
the call makes. -/
inductive Op where
  | deposit (ext : ExtEnv) (user : Address) (amount : Int)
      (deposit_token : Address) (now : Nat)
  | withdraw (user : Address) (shares : Int)

/-- The storage after one call, failed calls rolling back. -/
def applyOp (stg : Storage) : Op → Storage
  | .deposit ext user amount deposit_token now =>
    (run_deposit_with_token ext stg user amount deposit_token now).2.1
  | .withdraw user shares => (run_withdraw stg user shares).2.1

/-- The storage after a sequence of calls. -/
def execOps (stg : Storage) : List Op → Storage
  | [] => stg
  | op :: rest => execOps (applyOp stg op) rest

/-- Storage-map well-formedness: at most one position record per user. -/
def keysNodup (ps : List (Address × UserPosition)) : Prop :=
  (ps.map Prod.fst).Nodup

/-- Conservation of shares: the stored totals exist and the per-user
position records sum to `total_shares`. -/
def SharesConserved (stg : Storage) : Prop :=
  ∃ s, stg.state = some s ∧ sumShares stg.positions = s.total_shares

/-- The ledger invariant over vault storage: an initialized state with
non-negative totals, `total_shares = 0 → total_value = 0`, non-negative
position records, and conservation of shares. -/
def VaultInvariant (stg : Storage) : Prop :=
  ∃ s, stg.state = some s ∧
    0 ≤ s.total_shares ∧ 0 ≤ s.total_value ∧
    (s.total_shares = 0 → s.total_value = 0) ∧
    (∀ p ∈ stg.positions, 0 ≤ p.2.shares) ∧
    sumShares stg.positions = s.total_shares

/-- Vault storages reachable from initialization through base-asset
deposits and withdrawals (the "no rebalancing, no external price change"
regime of spec section 8). -/
inductive Reachable : Storage → Prop where
  | init (cfg : VaultConfig) (now : Nat) (stg : Storage)
      (h : init_vault emptyStorage cfg now = .ok stg) : Reachable stg
  | deposit (stg : Storage) (ext : ExtEnv) (user : Address) (amount : Int)
      (now : Nat) (cfg : VaultConfig) (base : Address) (rest : List Address)
      (hr : Reachable stg) (hcfg : stg.config = some cfg)
      (hassets : cfg.assets = base :: rest) :
      Reachable (run_deposit_with_token ext stg user amount base now).2.1
  | withdraw (stg : Storage) (user : Address) (shares : Int)
      (hr : Reachable stg) :
      Reachable (run_withdraw stg user shares).2.1

/-! ### Concrete fixtures used by the witnesses -/

/-- An oracle environment with inert externals. -/
def extFix : ExtEnv :=
  { pairFor := fun _ _ _ => 5,
    poolInfo := fun _ => { token0 := 0, token1 := 0,
                           reserve0 := 0, reserve1 := 0 },
    stakeDeposit := fun _ _ => 0 }

/-- A single-asset vault configuration with no rules and no router. -/
def cfgFix : VaultConfig :=
  { owner := 1, name := "v", assets := [10], rules := [],
    router_address := none, staking_pool_address := none,
    factory_address := none }

/-- A freshly initialized single-asset vault. -/
def stgFix : Storage :=
  { config := some cfgFix,
    state := some { total_shares := 0, total_value := 0,
                    last_rebalance := 0 },
    positions := [], stakingPosition := none }

/-- `cfgFix` with one always-firing `rebalance` rule (time threshold 0). -/
def cfgRuleFix : VaultConfig :=
  { cfgFix with
    rules := [{ condition_type := "time", threshold := 0,
                action := "rebalance", target_allocation := [1000000] }] }

/-- A freshly initialized vault carrying the always-firing rule. -/
def stgRuleFix : Storage :=
  { stgFix with config := some cfgRuleFix }

/-- `stgFix` after user 2 deposits 1000 of the base asset at time 0. -/
def stgFixAfter : Storage :=
  { config := some cfgFix,
    state := some { total_shares := 1000, total_value := 1000,
                    last_rebalance := 0 },
    positions := [(2, { shares := 1000, last_deposit := 0 })],
    stakingPosition := none }

/-- The effect trace of that deposit. -/
def effsFixAfter : List Effect :=
  [.event "start", .event "auth_ok", .event "init_ok", .event "amt_ok",
   .event "pos_ok", .event "cfg_ok", .event "tok_ok", .event "addr_ok",
   .event "b4_xfer", .transfer 10 2 0 1000, .event "xfer_ok",
   .event "deposit"]

/-- `stgFixAfter` after user 2 withdraws 200 shares. -/
def stgFixW : Storage :=
  { config := some cfgFix,
    state := some { total_shares := 800, total_value := 800,
                    last_rebalance := 0 },
    positions := [(2, { shares := 800, last_deposit := 0 })],
    stakingPosition := none }

/-- The effect trace of that withdrawal. -/
def effsFixW : List Effect :=
  [.transfer 10 0 2 200, .event "withdraw"]

/-- `stgFixAfter` after user 2 withdraws all 1000 shares: the position
record is deleted and the totals return to zero. -/
def stgFixDrained : Storage :=
  { config := some cfgFix,
    state := some { total_shares := 0, total_value := 0,
                    last_rebalance := 0 },
    positions := [], stakingPosition := none }

/-- A two-asset vault configuration with a router, for the rebalance
fixtures. -/
def cfgTwoFix : VaultConfig :=
  { owner := 1, name := "v", assets := [10, 11], rules := [],
    router_address := some 3, staking_pool_address := none,
    factory_address := none }

/-- A 50/50 `rebalance` rule over the two assets. -/
def ruleHalfFix : RebalanceRule :=
  { condition_type := "allocation", threshold := 0,
    action := "rebalance", target_allocation := [500000, 500000] }

/-- A balance view with both assets exactly at their 500 target. -/
def balFix : Address → Int := fun _ => 500

/-- A time rule with a negative threshold (nothing in the code rejects
it): the wrapping `as u64` cast turns `-1` into `2^64 - 1`. -/
def ruleNegFix : RebalanceRule :=
  { condition_type := "time", threshold := -1, action := "rebalance",
    target_allocation := [] }

/-- A one-hour time rule whose action matches no executor branch. -/
def ruleHourFix : RebalanceRule :=
  { condition_type := "time", threshold := 3600, action := "hold",
    target_allocation := [] }

/-- A time rule with threshold 0. -/
def ruleZeroFix : RebalanceRule :=
  { condition_type := "time", threshold := 0, action := "rebalance",
    target_allocation := [] }

/-- A storage whose `last_rebalance` (5) lies after the queried
timestamp (0): the code's elapsed-time subtraction saturates at zero. -/
def stgLateFix : Storage :=
  { config := none,
    state := some { total_shares := 0, total_value := 0,
                    last_rebalance := 5 },
    positions := [], stakingPosition := none }

/-- A vault with the one-hour rule and `last_rebalance = 100`. -/
def stgHourFix : Storage :=
  { config := some { cfgFix with rules := [ruleHourFix] },
    state := some { total_shares := 5, total_value := 5,
                    last_rebalance := 100 },
    positions := [], stakingPosition := none }

/-! ## Helper lemmas -/

theorem checked_add_some {a b v : Int} (h : checked_add a b = some v) :
    v = a + b := by
  unfold checked_add at h
  split at h
  · exact (Option.some.inj h).symm
  · exact Option.noConfusion h

theorem checked_sub_some {a b v : Int} (h : checked_sub a b = some v) :
    v = a - b := by
  unfold checked_sub at h
  split at h
  · exact (Option.some.inj h).symm
  · exact Option.noConfusion h

theorem checked_mul_some {a b v : Int} (h : checked_mul a b = some v) :
    v = a * b := by
  unfold checked_mul at h
  split at h
  · exact (Option.some.inj h).symm
  · exact Option.noConfusion h

theorem checked_div_some {a b v : Int} (h : checked_div a b = some v) :
    b ≠ 0 ∧ v = a.tdiv b := by
  unfold checked_div at h
  split at h
  · exact Option.noConfusion h
  · split at h
    · exact Option.noConfusion h
    · exact ⟨by assumption, (Option.some.inj h).symm⟩

theorem deposit_finish_ok {stg : Storage} {user : Address}
    {position : UserPosition} {final_amount : Int} {now : Nat}
    {effs : List Effect} {sh : Int} {stg' : Storage} {effs' : List Effect}
    {s : VaultState}
    (hs : stg.state = some s)
    (h : deposit_finish stg user position final_amount now effs =
      .ok (sh, stg', effs')) :
    (s.total_shares = 0 → sh = final_amount) ∧
    (s.total_shares ≠ 0 →
      s.total_value ≠ 0 ∧
      sh = (final_amount * s.total_shares).tdiv s.total_value) ∧
    stg' = { stg with
      state := some { total_shares := s.total_shares + sh,
                      total_value := s.total_value + final_amount,
                      last_rebalance := s.last_rebalance },
      positions := setPos stg.positions user
        { shares := position.shares + sh, last_deposit := now } } ∧
    effs' = effs ++ [Effect.event "deposit"] := by
  unfold deposit_finish at h
  split at h
  · exact Except.noConfusion h
  next state heq =>
    rw [hs] at heq
    injection heq with heq
    subst heq
    dsimp only at h
    split at h
    · exact Except.noConfusion h
    next shares hshares =>
      split at h
      · exact Except.noConfusion h
      next ts' hts' =>
        split at h
        · exact Except.noConfusion h
        next tv' htv' =>
          split at h
          · exact Except.noConfusion h
          next ps' hps' =>
            injection h with h
            simp only [Prod.mk.injEq] at h
            obtain ⟨h1, h2, h3⟩ := h
            subst h1
            obtain rfl := checked_add_some hts'
            obtain rfl := checked_add_some htv'
            obtain rfl := checked_add_some hps'
            refine ⟨?_, ?_, h2.symm, h3.symm⟩
            · intro h0
              rw [if_pos h0] at hshares
              exact (Option.some.inj hshares).symm
            · intro h0
              rw [if_neg h0] at hshares
              rcases hm : checked_mul final_amount s.total_shares with _ | p
              · rw [hm] at hshares
                exact Option.noConfusion hshares
              · rw [hm] at hshares
                simp only [Option.some_bind] at hshares
                obtain ⟨htv0, hsh⟩ := checked_div_some hshares
                exact ⟨htv0, by rw [hsh, checked_mul_some hm]⟩

theorem run_deposit_ok {ext : ExtEnv} {stg : Storage} {user : Address}
    {amount : Int} {tok : Address} {now : Nat} {sh : Int} {stg' : Storage}
    {effs : List Effect}
    (h : run_deposit_with_token ext stg user amount tok now =
      (.ok sh, stg', effs)) :
    deposit_with_token ext stg user amount tok now = .ok (sh, stg', effs) := by
  unfold run_deposit_with_token at h
  split at h
  next a b c heq =>
    simp only [Prod.mk.injEq, Except.ok.injEq] at h
    obtain ⟨h1, h2, h3⟩ := h
    rw [h1, h2, h3] at heq
    exact heq
  next e heq =>
    simp only [Prod.mk.injEq] at h
    exact absurd h.1 (by simp)

theorem run_withdraw_ok {stg : Storage} {user : Address} {shares : Int}
    {amt : Int} {stg' : Storage} {effs : List Effect}
    (h : run_withdraw stg user shares = (.ok amt, stg', effs)) :
    withdraw stg user shares = .ok (amt, stg', effs) := by
  unfold run_withdraw at h
  split at h
  next a b c heq =>
    simp only [Prod.mk.injEq, Except.ok.injEq] at h
    obtain ⟨h1, h2, h3⟩ := h
    rw [h1, h2, h3] at heq
    exact heq
  next e heq =>
    simp only [Prod.mk.injEq] at h
    exact absurd h.1 (by simp)

/-- Successful base-asset deposits, decomposed: the minted shares, the
new state and the new position list, together with the positivity of the
deposited amount. -/
theorem deposit_base_ok {ext : ExtEnv} {stg : Storage} {user : Address}
    {amount : Int} {now : Nat} {cfg : VaultConfig} {base : Address}
    {rest : List Address} {s : VaultState} {sh : Int} {stg' : Storage}
    {effs : List Effect}
    (hcfg : stg.config = some cfg) (hassets : cfg.assets = base :: rest)
    (hs : stg.state = some s)
    (hrun : run_deposit_with_token ext stg user amount base now =
      (.ok sh, stg', effs)) :
    0 < amount ∧
    (s.total_shares = 0 → sh = amount) ∧
    (s.total_shares ≠ 0 →
      s.total_value ≠ 0 ∧
      sh = (amount * s.total_shares).tdiv s.total_value) ∧
    stg' = { stg with
      state := some { total_shares := s.total_shares + sh,
                      total_value := s.total_value + amount,
                      last_rebalance := s.last_rebalance },
      positions := setPos stg.positions user
        { shares := (get_position stg user).shares + sh,
          last_deposit := now } } := by
  have h := run_deposit_ok hrun
  unfold deposit_with_token at h
  split at h
  · exact Except.noConfusion h
  split at h
  · exact Except.noConfusion h
  next hamt =>
  dsimp only at h
  split at h
  · exact Except.noConfusion h
  next config heqc =>
    rw [hcfg] at heqc
    injection heqc with heqc
    subst heqc
    split at h
    · next heqb =>
      rw [hassets] at heqb
      exact Option.noConfusion heqb
    next base' heqb =>
      rw [hassets] at heqb
      simp only [List.head?_cons, Option.some.injEq] at heqb
      subst heqb
      split at h
      · next hne => exact absurd rfl hne
      next hne =>
        obtain ⟨hboot, hgen, hstg, _⟩ := deposit_finish_ok hs h
        exact ⟨by omega, hboot, hgen, hstg⟩

/-! ## C1 -/

/-- C1: for every successful deposit of the base asset into an
initialized vault with non-negative totals, the deposited amount is
positive; the shares minted equal the deposited amount when
`total_shares = 0` (1:1 bootstrap) and
`⌊amount * total_shares / total_value⌋` otherwise; and the vault totals
grow by the minted shares and the deposited amount (`/` is `Int`
floor division). -/
theorem C1_deposit_share_minting
    (ext : ExtEnv) (stg : Storage) (user : Address) (amount : Int)
    (now : Nat) (cfg : VaultConfig) (base : Address) (rest : List Address)
    (s : VaultState) (sh : Int) (stg' : Storage) (effs : List Effect)
    (hcfg : stg.config = some cfg) (hassets : cfg.assets = base :: rest)
    (hs : stg.state = some s)
    (hts : 0 ≤ s.total_shares) (htv : 0 ≤ s.total_value)
    (hrun : run_deposit_with_token ext stg user amount base now =
      (.ok sh, stg', effs)) :
    0 < amount ∧
    (s.total_shares = 0 → sh = amount) ∧
    (s.total_shares ≠ 0 → sh = amount * s.total_shares / s.total_value) ∧
    stg'.state = some { total_shares := s.total_shares + sh,
                        total_value := s.total_value + amount,
                        last_rebalance := s.last_rebalance } := by
  obtain ⟨hpos, hboot, hgen, hstg⟩ := deposit_base_ok hcfg hassets hs hrun
  refine ⟨hpos, hboot, ?_, by rw [hstg]⟩
  intro h0
  obtain ⟨htv0, hsh⟩ := hgen h0
  rw [hsh]
  exact Int.tdiv_eq_ediv (mul_nonneg hpos.le hts) htv

/-- C1 witness: depositing 1000 into a fresh single-asset vault mints
1000 shares and leaves `total_value = 1000`. -/
theorem C1_deposit_share_minting_witness :
    run_deposit_with_token extFix stgFix 2 1000 10 0 =
      (.ok 1000, stgFixAfter, effsFixAfter) ∧
    stgFixAfter.state = some { total_shares := 1000, total_value := 1000,
                               last_rebalance := 0 } := by
  have hrun : run_deposit_with_token extFix stgFix 2 1000 10 0 =
      (.ok 1000, stgFixAfter, effsFixAfter) := by rfl
  have h := C1_deposit_share_minting extFix stgFix 2 1000 0 cfgFix 10 []
    { total_shares := 0, total_value := 0, last_rebalance := 0 }
    1000 stgFixAfter effsFixAfter rfl rfl rfl (by decide) (by decide) hrun
  exact ⟨hrun, by simpa using h.2.2.2⟩

/-! ## Position-map lemmas -/

theorem sumShares_nil : sumShares [] = 0 := rfl

theorem sumShares_cons (k : Address) (q : UserPosition)
    (t : List (Address × UserPosition)) :
    sumShares ((k, q) :: t) = q.shares + sumShares t := rfl

theorem setPos_cons_eq (k : Address) (q : UserPosition)
    (t : List (Address × UserPosition)) (p : UserPosition) :
    setPos ((k, q) :: t) k p = (k, p) :: t := by
  rw [setPos, if_pos rfl]

theorem setPos_cons_ne (k : Address) (q : UserPosition)
    (t : List (Address × UserPosition)) (u : Address) (p : UserPosition)
    (h : k ≠ u) : setPos ((k, q) :: t) u p = (k, q) :: setPos t u p := by
  rw [setPos, if_neg h]

theorem removePos_cons_eq (k : Address) (q : UserPosition)
    (t : List (Address × UserPosition)) :
    removePos ((k, q) :: t) k = t := by
  rw [removePos, if_pos rfl]

theorem removePos_cons_ne (k : Address) (q : UserPosition)
    (t : List (Address × UserPosition)) (u : Address) (h : k ≠ u) :
    removePos ((k, q) :: t) u = (k, q) :: removePos t u := by
  rw [removePos, if_neg h]

theorem lookup_cons_self (k : Address) (q : UserPosition)
    (t : List (Address × UserPosition)) :
    ((k, q) :: t).lookup k = some q := by
  simp [List.lookup]

theorem lookup_cons_ne (k : Address) (q : UserPosition)
    (t : List (Address × UserPosition)) {u : Address} (h : u ≠ k) :
    ((k, q) :: t).lookup u = t.lookup u := by
  simp only [List.lookup]
  have hbeq : (u == k) = false := by simp [h]
  rw [hbeq]

theorem lookup_setPos_self (ps : List (Address × UserPosition)) (u : Address)
    (p : UserPosition) : (setPos ps u p).lookup u = some p := by
  induction ps with
  | nil => simp [setPos, List.lookup]
  | cons hd t ih =>
    obtain ⟨k, q⟩ := hd
    by_cases hk : k = u
    · subst hk
      rw [setPos_cons_eq, lookup_cons_self]
    · rw [setPos_cons_ne _ _ _ _ _ hk, lookup_cons_ne _ _ _ (Ne.symm hk)]
      exact ih

theorem sumShares_setPos (ps : List (Address × UserPosition)) (u : Address)
    (p : UserPosition) :
    sumShares (setPos ps u p) =
      sumShares ps -
        ((ps.lookup u).getD { shares := 0, last_deposit := 0 }).shares +
        p.shares := by
  induction ps with
  | nil => simp [setPos, List.lookup, sumShares]
  | cons hd t ih =>
    obtain ⟨k, q⟩ := hd
    by_cases hk : k = u
    · subst hk
      rw [setPos_cons_eq, lookup_cons_self, sumShares_cons, sumShares_cons]
      simp only [Option.getD_some]
      ring
    · rw [setPos_cons_ne _ _ _ _ _ hk, lookup_cons_ne _ _ _ (Ne.symm hk),
        sumShares_cons, sumShares_cons, ih]
      ring

theorem sumShares_removePos (ps : List (Address × UserPosition))
    (u : Address) :
    sumShares (removePos ps u) =
      sumShares ps -
        ((ps.lookup u).getD { shares := 0, last_deposit := 0 }).shares := by
  induction ps with
  | nil => simp [removePos, List.lookup, sumShares]
  | cons hd t ih =>
    obtain ⟨k, q⟩ := hd
    by_cases hk : k = u
    · subst hk
      rw [removePos_cons_eq, lookup_cons_self, sumShares_cons]
      simp only [Option.getD_some]
      ring
    · rw [removePos_cons_ne _ _ _ _ hk, lookup_cons_ne _ _ _ (Ne.symm hk),
        sumShares_cons, sumShares_cons, ih]
      ring

theorem mem_setPos {ps : List (Address × UserPosition)} {u : Address}
    {p : UserPosition} {q : Address × UserPosition}
    (h : q ∈ setPos ps u p) : q = (u, p) ∨ q ∈ ps := by
  induction ps with
  | nil => simpa [setPos] using h
  | cons hd t ih =>
    obtain ⟨k, r⟩ := hd
    by_cases hk : k = u
    · subst hk
      rw [setPos_cons_eq] at h
      rcases List.mem_cons.mp h with h1 | h1
      · exact Or.inl h1
      · exact Or.inr (List.mem_cons.mpr (Or.inr h1))
    · rw [setPos_cons_ne _ _ _ _ _ hk] at h
      rcases List.mem_cons.mp h with h1 | h1
      · exact Or.inr (List.mem_cons.mpr (Or.inl h1))
      · rcases ih h1 with h2 | h2
        · exact Or.inl h2
        · exact Or.inr (List.mem_cons.mpr (Or.inr h2))

theorem mem_removePos {ps : List (Address × UserPosition)} {u : Address}
    {q : Address × UserPosition} (h : q ∈ removePos ps u) : q ∈ ps := by
  induction ps with
  | nil => simpa [removePos] using h
  | cons hd t ih =>
    obtain ⟨k, r⟩ := hd
    by_cases hk : k = u
    · subst hk
      rw [removePos_cons_eq] at h
      exact List.mem_cons.mpr (Or.inr h)
    · rw [removePos_cons_ne _ _ _ _ hk] at h
      rcases List.mem_cons.mp h with h1 | h1
      · exact List.mem_cons.mpr (Or.inl h1)
      · exact List.mem_cons.mpr (Or.inr (ih h1))

theorem keysNodup_cons {k : Address} {r : UserPosition}
    {t : List (Address × UserPosition)} :
    keysNodup ((k, r) :: t) ↔
      (¬ k ∈ t.map Prod.fst) ∧ keysNodup t := by
  unfold keysNodup
  rw [List.map_cons, List.nodup_cons]

theorem keysNodup_setPos {ps : List (Address × UserPosition)} (u : Address)
    (p : UserPosition) (h : keysNodup ps) : keysNodup (setPos ps u p) := by
  induction ps with
  | nil => simp [setPos, keysNodup]
  | cons hd t ih =>
    obtain ⟨k, r⟩ := hd
    obtain ⟨hk1, hk2⟩ := keysNodup_cons.mp h
    by_cases hk : k = u
    · subst hk
      rw [setPos_cons_eq]
      exact keysNodup_cons.mpr ⟨hk1, hk2⟩
    · rw [setPos_cons_ne _ _ _ _ _ hk]
      refine keysNodup_cons.mpr ⟨?_, ih hk2⟩
      intro hmem
      rcases List.mem_map.mp hmem with ⟨q, hq, hq2⟩
      rcases mem_setPos hq with h1 | h1
      · exact hk (by rw [h1] at hq2; exact hq2.symm)
      · exact hk1 (List.mem_map.mpr ⟨q, h1, hq2⟩)

theorem keysNodup_removePos {ps : List (Address × UserPosition)}
    (u : Address) (h : keysNodup ps) : keysNodup (removePos ps u) := by
  induction ps with
  | nil => simp [removePos, keysNodup]
  | cons hd t ih =>
    obtain ⟨k, r⟩ := hd
    obtain ⟨hk1, hk2⟩ := keysNodup_cons.mp h
    by_cases hk : k = u
    · subst hk
      rw [removePos_cons_eq]
      exact hk2
    · rw [removePos_cons_ne _ _ _ _ hk]
      refine keysNodup_cons.mpr ⟨?_, ih hk2⟩
      intro hmem
      rcases List.mem_map.mp hmem with ⟨q, hq, hq2⟩
      exact hk1 (List.mem_map.mpr ⟨q, mem_removePos hq, hq2⟩)

theorem lookup_not_mem_keys {ps : List (Address × UserPosition)}
    {u : Address} (h : ¬ u ∈ ps.map Prod.fst) : ps.lookup u = none := by
  induction ps with
  | nil => simp [List.lookup]
  | cons hd t ih =>
    obtain ⟨k, r⟩ := hd
    rw [List.map_cons, List.mem_cons] at h
    have hne : u ≠ k := fun hh => h (Or.inl hh)
    rw [lookup_cons_ne _ _ _ hne]
    exact ih (fun hh => h (Or.inr hh))

theorem lookup_removePos_self {ps : List (Address × UserPosition)}
    {u : Address} (h : keysNodup ps) :
    (removePos ps u).lookup u = none := by
  induction ps with
  | nil => simp [removePos, List.lookup]
  | cons hd t ih =>
    obtain ⟨k, r⟩ := hd
    obtain ⟨hk1, hk2⟩ := keysNodup_cons.mp h
    by_cases hk : k = u
    · subst hk
      rw [removePos_cons_eq]
      exact lookup_not_mem_keys hk1
    · rw [removePos_cons_ne _ _ _ _ hk, lookup_cons_ne _ _ _ (Ne.symm hk)]
      exact ih hk2

theorem sumShares_nonneg {ps : List (Address × UserPosition)}
    (h : ∀ p ∈ ps, 0 ≤ p.2.shares) : 0 ≤ sumShares ps := by
  induction ps with
  | nil => simp [sumShares]
  | cons hd t ih =>
    obtain ⟨k, r⟩ := hd
    rw [sumShares_cons]
    have h1 : 0 ≤ r.shares := h (k, r) (List.mem_cons_self _ _)
    have h2 := ih (fun p hp => h p (List.mem_cons.mpr (Or.inr hp)))
    omega

theorem lookup_shares_le_sum {ps : List (Address × UserPosition)}
    (u : Address) (h : ∀ p ∈ ps, 0 ≤ p.2.shares) :
    ((ps.lookup u).getD { shares := 0, last_deposit := 0 }).shares ≤
      sumShares ps := by
  induction ps with
  | nil => simp [List.lookup, sumShares]
  | cons hd t ih =>
    obtain ⟨k, r⟩ := hd
    have h1 : 0 ≤ r.shares := h (k, r) (List.mem_cons_self _ _)
    have h2 : ∀ p ∈ t, 0 ≤ p.2.shares :=
      fun p hp => h p (List.mem_cons.mpr (Or.inr hp))
    have hsum := sumShares_nonneg h2
    rw [sumShares_cons]
    by_cases hk : u = k
    · subst hk
      rw [lookup_cons_self]
      simp only [Option.getD_some]
      omega
    · rw [lookup_cons_ne _ _ _ hk]
      have := ih h2
      omega

/-- Successful withdrawals, decomposed. -/
theorem withdraw_ok {stg : Storage} {user : Address} {shares : Int}
    {amt : Int} {stg' : Storage} {effs : List Effect} {cfg : VaultConfig}
    {base : Address} {rest : List Address} {s : VaultState}
    (hcfg : stg.config = some cfg) (hassets : cfg.assets = base :: rest)
    (hs : stg.state = some s)
    (hrun : run_withdraw stg user shares = (.ok amt, stg', effs)) :
    0 < shares ∧ shares ≤ (get_position stg user).shares ∧
    s.total_shares ≠ 0 ∧
    amt = (shares * s.total_value).tdiv s.total_shares ∧
    stg' = { stg with
      state := some { total_shares := s.total_shares - shares,
                      total_value := s.total_value - amt,
                      last_rebalance := s.last_rebalance },
      positions :=
        if (get_position stg user).shares - shares = 0 then
          removePos stg.positions user
        else
          setPos stg.positions user
            { shares := (get_position stg user).shares - shares,
              last_deposit := (get_position stg user).last_deposit } } ∧
    effs = [Effect.transfer base current_contract_address user amt,
            Effect.event "withdraw"] := by
  have h := run_withdraw_ok hrun
  unfold withdraw at h
  split at h
  · exact Except.noConfusion h
  split at h
  · exact Except.noConfusion h
  next hshpos =>
  dsimp only at h
  split at h
  · exact Except.noConfusion h
  next hsuff =>
  split at h
  · exact Except.noConfusion h
  next state heqs =>
    rw [hs] at heqs
    injection heqs with heqs
    subst heqs
    split at h
    · exact Except.noConfusion h
    next hts0 =>
    split at h
    · exact Except.noConfusion h
    next amount hamt =>
      split at h
      · exact Except.noConfusion h
      next config heqc =>
        rw [hcfg] at heqc
        injection heqc with heqc
        subst heqc
        split at h
        · next heqb =>
          rw [hassets] at heqb
          exact Option.noConfusion heqb
        next base' heqb =>
          rw [hassets] at heqb
          simp only [List.head?_cons, Option.some.injEq] at heqb
          subst heqb
          split at h
          · exact Except.noConfusion h
          next ts' hts' =>
            split at h
            · exact Except.noConfusion h
            next tv' htv' =>
              split at h
              · exact Except.noConfusion h
              next ps' hps' =>
                injection h with h
                simp only [Prod.mk.injEq] at h
                obtain ⟨h1, h2, h3⟩ := h
                subst h1
                obtain rfl := checked_sub_some hts'
                obtain rfl := checked_sub_some htv'
                -- the computed amount
                rcases hm : checked_mul shares s.total_value with _ | p
                · rw [hm] at hamt
                  exact Option.noConfusion hamt
                rw [hm] at hamt
                simp only [Option.some_bind] at hamt
                obtain ⟨_, hdiv⟩ := checked_div_some hamt
                have hamtval : amount = (shares * s.total_value).tdiv
                    s.total_shares := by
                  rw [hdiv, checked_mul_some hm]
                refine ⟨by omega, by omega, hts0, hamtval, ?_, h3.symm⟩
                rw [← h2]
                obtain rfl := checked_sub_some hps'
                rfl

/-! ## C2 -/

/-- C2: for every successful `withdraw(user, shares)` on an initialized
vault with non-negative totals and well-formed position storage:
`0 < shares ≤ position.shares`, `total_shares > 0`, the amount returned
is `⌊shares * total_value / total_shares⌋`, the totals decrease by
`shares` and that amount, the user's position decreases by `shares`,
and the position record is deleted exactly when its shares reach zero
(`/` is `Int` floor division). -/
theorem C2_withdraw_accounting
    (stg : Storage) (user : Address) (shares : Int) (amt : Int)
    (stg' : Storage) (effs : List Effect) (cfg : VaultConfig)
    (base : Address) (rest : List Address) (s : VaultState)
    (hcfg : stg.config = some cfg) (hassets : cfg.assets = base :: rest)
    (hs : stg.state = some s)
    (hts : 0 ≤ s.total_shares) (htv : 0 ≤ s.total_value)
    (hnd : keysNodup stg.positions)
    (hrun : run_withdraw stg user shares = (.ok amt, stg', effs)) :
    0 < shares ∧ shares ≤ (get_position stg user).shares ∧
    0 < s.total_shares ∧
    amt = shares * s.total_value / s.total_shares ∧
    stg'.state = some { total_shares := s.total_shares - shares,
                        total_value := s.total_value - amt,
                        last_rebalance := s.last_rebalance } ∧
    (get_position stg' user).shares =
      (get_position stg user).shares - shares ∧
    (stg'.positions.lookup user = none ↔
      (get_position stg user).shares - shares = 0) := by
  obtain ⟨h1, h2, h3, h4, h5, _⟩ := withdraw_ok hcfg hassets hs hrun
  have hts0 : 0 < s.total_shares := lt_of_le_of_ne hts (Ne.symm h3)
  have hfloor : amt = shares * s.total_value / s.total_shares := by
    rw [h4]
    exact Int.tdiv_eq_ediv (mul_nonneg h1.le htv) hts
  have hpos' : stg'.positions =
      if (get_position stg user).shares - shares = 0 then
        removePos stg.positions user
      else
        setPos stg.positions user
          { shares := (get_position stg user).shares - shares,
            last_deposit := (get_position stg user).last_deposit } := by
    rw [h5]
  refine ⟨h1, h2, hts0, hfloor, by rw [h5], ?_, ?_⟩
  · by_cases hz : (get_position stg user).shares - shares = 0
    · rw [get_position, hpos', if_pos hz, lookup_removePos_self hnd]
      simp only [Option.getD_none]
      omega
    · rw [get_position, hpos', if_neg hz, lookup_setPos_self]
      simp only [Option.getD_some]
  · by_cases hz : (get_position stg user).shares - shares = 0
    · rw [hpos', if_pos hz, lookup_removePos_self hnd]
      simp [hz]
    · rw [hpos', if_neg hz, lookup_setPos_self]
      simp [hz]

/-- C2 witness: withdrawing 200 of the 1000 shares leaves
`total_shares = 800`, `total_value = 800` and a live 800-share position
(the spec's scenario). -/
theorem C2_withdraw_accounting_witness :
    (0 : Int) < 200 ∧
    200 ≤ (get_position stgFixAfter 2).shares ∧
    run_withdraw stgFixAfter 2 200 = (.ok 200, stgFixW, effsFixW) ∧
    stgFixW.state = some { total_shares := 800, total_value := 800,
                           last_rebalance := 0 } ∧
    stgFixW.positions.lookup 2 = some { shares := 800, last_deposit := 0 } := by
  have hrun : run_withdraw stgFixAfter 2 200 =
      (.ok 200, stgFixW, effsFixW) := by rfl
  have h := C2_withdraw_accounting stgFixAfter 2 200 200 stgFixW effsFixW
    cfgFix 10 []
    { total_shares := 1000, total_value := 1000, last_rebalance := 0 }
    rfl rfl rfl (by decide) (by decide) (by unfold keysNodup; decide) hrun
  exact ⟨h.1, h.2.1, hrun, by decide, by decide⟩

/-! ## General extraction lemmas (any deposit token) -/

theorem run_deposit_spec (ext : ExtEnv) (stg : Storage) (user : Address)
    (amount : Int) (tok : Address) (now : Nat) :
    (∃ e, deposit_with_token ext stg user amount tok now = .error e ∧
      run_deposit_with_token ext stg user amount tok now =
        (.error e, stg, [])) ∨
    (∃ sh stg' effs,
      deposit_with_token ext stg user amount tok now = .ok (sh, stg', effs) ∧
      run_deposit_with_token ext stg user amount tok now =
        (.ok sh, stg', effs)) := by
  rcases h : deposit_with_token ext stg user amount tok now with e | ⟨sh, stg', effs⟩
  · exact Or.inl ⟨e, rfl, by unfold run_deposit_with_token; rw [h]⟩
  · exact Or.inr ⟨sh, stg', effs, rfl, by unfold run_deposit_with_token; rw [h]⟩

theorem run_withdraw_spec (stg : Storage) (user : Address) (shares : Int) :
    (∃ e, withdraw stg user shares = .error e ∧
      run_withdraw stg user shares = (.error e, stg, [])) ∨
    (∃ amt stg' effs,
      withdraw stg user shares = .ok (amt, stg', effs) ∧
      run_withdraw stg user shares = (.ok amt, stg', effs)) := by
  rcases h : withdraw stg user shares with e | ⟨amt, stg', effs⟩
  · exact Or.inl ⟨e, rfl, by unfold run_withdraw; rw [h]⟩
  · exact Or.inr ⟨amt, stg', effs, rfl, by unfold run_withdraw; rw [h]⟩

theorem deposit_finish_ok' {stg : Storage} {user : Address}
    {position : UserPosition} {final_amount : Int} {now : Nat}
    {effs : List Effect} {sh : Int} {stg' : Storage} {effs' : List Effect}
    (h : deposit_finish stg user position final_amount now effs =
      .ok (sh, stg', effs')) :
    ∃ s, stg.state = some s ∧
      ((s.total_shares = 0 → sh = final_amount) ∧
       (s.total_shares ≠ 0 →
         s.total_value ≠ 0 ∧
         sh = (final_amount * s.total_shares).tdiv s.total_value) ∧
       stg' = { stg with
         state := some { total_shares := s.total_shares + sh,
                         total_value := s.total_value + final_amount,
                         last_rebalance := s.last_rebalance },
         positions := setPos stg.positions user
           { shares := position.shares + sh, last_deposit := now } } ∧
       effs' = effs ++ [Effect.event "deposit"]) := by
  rcases hs : stg.state with _ | s
  · unfold deposit_finish at h
    rw [hs] at h
    exact Except.noConfusion h
  · exact ⟨s, rfl, deposit_finish_ok hs h⟩

/-- Every successful deposit, with any deposit token: there is a
post-conversion amount `fin` from which the minted shares are computed,
and the state totals and the caller's position are updated with the
same minted shares. -/
theorem deposit_ok_general {ext : ExtEnv} {stg : Storage} {user : Address}
    {amount : Int} {tok : Address} {now : Nat} {sh : Int} {stg' : Storage}
    {effs : List Effect}
    (h : deposit_with_token ext stg user amount tok now =
      .ok (sh, stg', effs)) :
    ∃ s fin, stg.state = some s ∧ 0 < amount ∧
      (s.total_shares = 0 → sh = fin) ∧
      (s.total_shares ≠ 0 →
        s.total_value ≠ 0 ∧
        sh = (fin * s.total_shares).tdiv s.total_value) ∧
      stg' = { stg with
        state := some { total_shares := s.total_shares + sh,
                        total_value := s.total_value + fin,
                        last_rebalance := s.last_rebalance },
        positions := setPos stg.positions user
          { shares := (get_position stg user).shares + sh,
            last_deposit := now } } := by
  unfold deposit_with_token at h
  split at h
  · exact Except.noConfusion h
  split at h
  · exact Except.noConfusion h
  next hamt =>
  dsimp only at h
  split at h
  · exact Except.noConfusion h
  next config heqc =>
    split at h
    · exact Except.noConfusion h
    next base' heqb =>
      split at h
      · -- deposit token differs from the base asset: auto-swap path
        split at h
        · exact Except.noConfusion h
        next router hrouter =>
          split at h
          · exact Except.noConfusion h
          next res hswap =>
            obtain ⟨s, hs, h1, h2, h3, _⟩ := deposit_finish_ok' h
            exact ⟨s, res.1, hs, by omega, h1, h2, h3⟩
      · obtain ⟨s, hs, h1, h2, h3, _⟩ := deposit_finish_ok' h
        exact ⟨s, amount, hs, by omega, h1, h2, h3⟩

/-- Every successful withdrawal (no assumption on the configuration). -/
theorem withdraw_ok_general {stg : Storage} {user : Address} {shares : Int}
    {amt : Int} {stg' : Storage} {effs : List Effect}
    (h : withdraw stg user shares = .ok (amt, stg', effs)) :
    ∃ s, stg.state = some s ∧
      0 < shares ∧ shares ≤ (get_position stg user).shares ∧
      s.total_shares ≠ 0 ∧
      amt = (shares * s.total_value).tdiv s.total_shares ∧
      stg' = { stg with
        state := some { total_shares := s.total_shares - shares,
                        total_value := s.total_value - amt,
                        last_rebalance := s.last_rebalance },
        positions :=
          if (get_position stg user).shares - shares = 0 then
            removePos stg.positions user
          else
            setPos stg.positions user
              { shares := (get_position stg user).shares - shares,
                last_deposit := (get_position stg user).last_deposit } } := by
  unfold withdraw at h
  split at h
  · exact Except.noConfusion h
  split at h
  · exact Except.noConfusion h
  next hshpos =>
  dsimp only at h
  split at h
  · exact Except.noConfusion h
  next hsuff =>
  split at h
  · exact Except.noConfusion h
  next state heqs =>
    split at h
    · exact Except.noConfusion h
    next hts0 =>
    split at h
    · exact Except.noConfusion h
    next amount hamt =>
      split at h
      · exact Except.noConfusion h
      next config heqc =>
        split at h
        · exact Except.noConfusion h
        next base' heqb =>
          split at h
          · exact Except.noConfusion h
          next ts' hts' =>
            split at h
            · exact Except.noConfusion h
            next tv' htv' =>
              split at h
              · exact Except.noConfusion h
              next ps' hps' =>
                injection h with h
                simp only [Prod.mk.injEq] at h
                obtain ⟨h1, h2, h3⟩ := h
                subst h1
                obtain rfl := checked_sub_some hts'
                obtain rfl := checked_sub_some htv'
                rcases hm : checked_mul shares state.total_value with _ | p
                · rw [hm] at hamt
                  exact Option.noConfusion hamt
                rw [hm] at hamt
                simp only [Option.some_bind] at hamt
                obtain ⟨_, hdiv⟩ := checked_div_some hamt
                refine ⟨state, heqs, by omega, by omega, hts0, ?_, ?_⟩
                · rw [hdiv, checked_mul_some hm]
                · rw [← h2]
                  obtain rfl := checked_sub_some hps'
                  rfl

/-! ## C4 -/

theorem sharesConserved_applyOp {stg : Storage} (h : SharesConserved stg)
    (op : Op) : SharesConserved (applyOp stg op) := by
  obtain ⟨s, hs, hsum⟩ := h
  cases op with
  | deposit ext user amount tok now =>
    rcases run_deposit_spec ext stg user amount tok now with
      ⟨e, _, hrun⟩ | ⟨sh, stg', effs, hdep, hrun⟩
    · show SharesConserved (run_deposit_with_token ext stg user amount tok now).2.1
      rw [hrun]
      exact ⟨s, hs, hsum⟩
    · show SharesConserved (run_deposit_with_token ext stg user amount tok now).2.1
      rw [hrun]
      obtain ⟨s2, fin, hs2, _, _, _, hstg'⟩ := deposit_ok_general hdep
      rw [hs] at hs2
      injection hs2 with hs2
      subst hs2
      rw [hstg']
      refine ⟨_, rfl, ?_⟩
      rw [sumShares_setPos]
      unfold get_position
      dsimp only
      rw [hsum]
      ring
  | withdraw user shares =>
    rcases run_withdraw_spec stg user shares with
      ⟨e, _, hrun⟩ | ⟨amt, stg', effs, hwd, hrun⟩
    · show SharesConserved (run_withdraw stg user shares).2.1
      rw [hrun]
      exact ⟨s, hs, hsum⟩
    · show SharesConserved (run_withdraw stg user shares).2.1
      rw [hrun]
      obtain ⟨s2, hs2, _, _, _, _, hstg'⟩ := withdraw_ok_general hwd
      rw [hs] at hs2
      injection hs2 with hs2
      subst hs2
      rw [hstg']
      refine ⟨_, rfl, ?_⟩
      by_cases hz : (get_position stg user).shares - shares = 0
      · rw [if_pos hz, sumShares_removePos]
        unfold get_position at hz
        dsimp only
        rw [hsum]
        omega
      · rw [if_neg hz, sumShares_setPos]
        unfold get_position
        dsimp only
        rw [hsum]
        ring

theorem sharesConserved_execOps {stg : Storage} (h : SharesConserved stg)
    (ops : List Op) : SharesConserved (execOps stg ops) := by
  induction ops generalizing stg with
  | nil => exact h
  | cons op rest ih => exact ih (sharesConserved_applyOp h op)

/-- C4: starting from an initialized vault, after every sequence of
deposit/withdraw calls (each failed call rolling back), the sum of
shares over all stored `UserPosition` records equals
`VaultState.total_shares`. -/
theorem C4_share_conservation (cfg : VaultConfig) (t : Nat) (stg0 : Storage)
    (ops : List Op) (hinit : init_vault emptyStorage cfg t = .ok stg0) :
    sumShares (execOps stg0 ops).positions =
      (get_state (execOps stg0 ops)).total_shares := by
  have h0 : SharesConserved stg0 := by
    unfold init_vault at hinit
    split at hinit
    · exact Except.noConfusion hinit
    · split at hinit
      · exact Except.noConfusion hinit
      · injection hinit with hinit
        rw [← hinit]
        exact ⟨_, rfl, rfl⟩
  obtain ⟨s, hs, hsum⟩ := sharesConserved_execOps h0 ops
  rw [hsum, get_state, hs]
  rfl

/-- C4 witness: a deposit of 1000 followed by a withdrawal of 200 shares
conserves `Σ shares = total_shares = 800`. -/
theorem C4_share_conservation_witness :
    init_vault emptyStorage cfgFix 0 = .ok stgFix ∧
    sumShares (execOps stgFix
        [Op.deposit extFix 2 1000 10 0, Op.withdraw 2 200]).positions =
      (get_state (execOps stgFix
        [Op.deposit extFix 2 1000 10 0, Op.withdraw 2 200])).total_shares :=
  ⟨by rfl,
   C4_share_conservation cfgFix 0 stgFix
     [Op.deposit extFix 2 1000 10 0, Op.withdraw 2 200] (by rfl)⟩

/-! ## C3 -/

theorem lookup_mem {ps : List (Address × UserPosition)} {u : Address}
    {q : UserPosition} (h : ps.lookup u = some q) : (u, q) ∈ ps := by
  induction ps with
  | nil => simp [List.lookup] at h
  | cons hd t ih =>
    obtain ⟨k, r⟩ := hd
    by_cases hk : u = k
    · subst hk
      rw [lookup_cons_self] at h
      injection h with h
      subst h
      exact List.mem_cons_self _ _
    · rw [lookup_cons_ne _ _ _ hk] at h
      exact List.mem_cons.mpr (Or.inr (ih h))

theorem get_position_nonneg {stg : Storage} (user : Address)
    (h : ∀ p ∈ stg.positions, 0 ≤ p.2.shares) :
    0 ≤ (get_position stg user).shares := by
  unfold get_position
  rcases hl : stg.positions.lookup user with _ | q
  · simp
  · simpa using h (user, q) (lookup_mem hl)

theorem invariant_init {cfg : VaultConfig} {now : Nat} {stg : Storage}
    (h : init_vault emptyStorage cfg now = .ok stg) : VaultInvariant stg := by
  unfold init_vault at h
  split at h
  · exact Except.noConfusion h
  · split at h
    · exact Except.noConfusion h
    · injection h with h
      rw [← h]
      exact ⟨_, rfl, le_refl _, le_refl _, fun _ => rfl, by simp [emptyStorage], rfl⟩

theorem invariant_deposit_base {stg : Storage} {ext : ExtEnv}
    {user : Address} {amount : Int} {now : Nat} {cfg : VaultConfig}
    {base : Address} {rest : List Address}
    (hinv : VaultInvariant stg) (hcfg : stg.config = some cfg)
    (hassets : cfg.assets = base :: rest) :
    VaultInvariant (run_deposit_with_token ext stg user amount base now).2.1 := by
  obtain ⟨s, hs, hts, htv, hzero, hpos, hsum⟩ := hinv
  rcases run_deposit_spec ext stg user amount base now with
    ⟨e, _, hrun⟩ | ⟨sh, stg', effs, hdep, hrun⟩
  · rw [hrun]
    exact ⟨s, hs, hts, htv, hzero, hpos, hsum⟩
  · rw [hrun]
    dsimp only
    obtain ⟨hamt, hboot, hgen, hstg'⟩ :=
      deposit_base_ok hcfg hassets hs
        (by rw [hrun])
    -- the minted shares are non-negative and the new totals positive
    have hshnn : 0 ≤ sh ∧ 0 < s.total_shares + sh ∧
        0 < s.total_value + amount := by
      by_cases h0 : s.total_shares = 0
      · have := hboot h0
        have htv0 := hzero h0
        constructor
        · omega
        · constructor <;> omega
      · obtain ⟨htv0, hsh⟩ := hgen h0
        have hts0 : 0 < s.total_shares := lt_of_le_of_ne hts (Ne.symm h0)
        have htv1 : 0 < s.total_value := lt_of_le_of_ne htv (Ne.symm htv0)
        have : 0 ≤ sh := by
          rw [hsh]
          exact Int.tdiv_nonneg (mul_nonneg hamt.le hts) htv
        refine ⟨this, by omega, by omega⟩
    rw [hstg']
    refine ⟨_, rfl, by dsimp only; omega, by dsimp only; omega,
      by dsimp only; omega, ?_, ?_⟩
    · intro p hp
      rcases mem_setPos hp with h1 | h1
      · rw [h1]
        dsimp only
        have := get_position_nonneg user hpos
        omega
      · exact hpos p h1
    · rw [sumShares_setPos]
      unfold get_position
      dsimp only
      rw [hsum]
      ring

theorem invariant_withdraw {stg : Storage} {user : Address} {shares : Int}
    (hinv : VaultInvariant stg) :
    VaultInvariant (run_withdraw stg user shares).2.1 := by
  obtain ⟨s, hs, hts, htv, hzero, hpos, hsum⟩ := hinv
  rcases run_withdraw_spec stg user shares with
    ⟨e, _, hrun⟩ | ⟨amt, stg', effs, hwd, hrun⟩
  · rw [hrun]
    exact ⟨s, hs, hts, htv, hzero, hpos, hsum⟩
  · rw [hrun]
    dsimp only
    obtain ⟨s2, hs2, hshpos, hshle, hts0, hamt, hstg'⟩ :=
      withdraw_ok_general hwd
    rw [hs] at hs2
    injection hs2 with hs2
    subst hs2
    have htspos : 0 < s.total_shares := lt_of_le_of_ne hts (Ne.symm hts0)
    -- the user's shares are bounded by the total
    have hle : (get_position stg user).shares ≤ s.total_shares := by
      rw [← hsum]
      exact lookup_shares_le_sum user hpos
    -- the returned amount is non-negative and bounded by total_value
    have hamtnn : 0 ≤ amt := by
      rw [hamt]
      exact Int.tdiv_nonneg (mul_nonneg hshpos.le htv) hts
    have hamtle : amt ≤ s.total_value := by
      rw [hamt, Int.tdiv_eq_ediv (mul_nonneg hshpos.le htv) hts]
      calc shares * s.total_value / s.total_shares
          ≤ s.total_shares * s.total_value / s.total_shares :=
            Int.ediv_le_ediv htspos
              (mul_le_mul_of_nonneg_right (by omega) htv)
        _ = s.total_value := Int.mul_ediv_cancel_left _ hts0
    -- withdrawing everything returns everything
    have hdrain : s.total_shares - shares = 0 → s.total_value - amt = 0 := by
      intro hall
      have hsheq : shares = s.total_shares := by omega
      rw [hamt, hsheq,
        Int.tdiv_eq_ediv (mul_nonneg hts htv) hts,
        Int.mul_ediv_cancel_left _ hts0]
      ring
    rw [hstg']
    refine ⟨_, rfl, by dsimp only; omega, by dsimp only; omega,
      by dsimp only; exact hdrain, ?_, ?_⟩
    · intro p hp
      split at hp
      · exact hpos p (mem_removePos hp)
      · rcases mem_setPos hp with h1 | h1
        · rw [h1]
          dsimp only
          omega
        · exact hpos p h1
    · split
      · next hz =>
        rw [sumShares_removePos]
        unfold get_position at hz
        dsimp only
        rw [hsum]
        omega
      · rw [sumShares_setPos]
        unfold get_position
        dsimp only
        rw [hsum]
        ring

theorem reachable_invariant {stg : Storage} (h : Reachable stg) :
    VaultInvariant stg := by
  induction h with
  | init cfg now stg h => exact invariant_init h
  | deposit stg ext user amount now cfg base rest hr hcfg hassets ih =>
    exact invariant_deposit_base ih hcfg hassets
  | withdraw stg user shares hr ih => exact invariant_withdraw ih

/-- C3: from every reachable vault state, depositing `amount > 0` of the
base asset and then withdrawing exactly the minted shares returns at
most `amount`: integer truncation never rounds in the depositor's
favor. -/
theorem C3_deposit_withdraw_no_gain
    (stg : Storage) (ext : ExtEnv) (user : Address) (amount : Int)
    (now : Nat) (cfg : VaultConfig) (base : Address) (rest : List Address)
    (sh : Int) (stg1 : Storage) (e1 : List Effect) (amt : Int)
    (stg2 : Storage) (e2 : List Effect)
    (hreach : Reachable stg)
    (hcfg : stg.config = some cfg) (hassets : cfg.assets = base :: rest)
    (hdep : run_deposit_with_token ext stg user amount base now =
      (.ok sh, stg1, e1))
    (hwd : run_withdraw stg1 user sh = (.ok amt, stg2, e2)) :
    amt ≤ amount := by
  obtain ⟨s, hs, hts, htv, hzero, hpos, hsum⟩ := reachable_invariant hreach
  obtain ⟨hamt, hboot, hgen, hstg1⟩ := deposit_base_ok hcfg hassets hs hdep
  have hs1 : stg1.state = some
      { total_shares := s.total_shares + sh,
        total_value := s.total_value + amount,
        last_rebalance := s.last_rebalance } := by
    rw [hstg1]
  obtain ⟨s2, hs2, hshpos, _, hts1, hamt1, _⟩ :=
    withdraw_ok_general (run_withdraw_ok hwd)
  rw [hs1] at hs2
  injection hs2 with hs2
  subst hs2
  dsimp only at hamt1 hts1
  by_cases h0 : s.total_shares = 0
  · -- bootstrap round trip: everything comes back exactly
    have hshamt := hboot h0
    have htv0 := hzero h0
    subst hshamt
    rw [hamt1, h0, htv0]
    have : (0 : Int) + sh ≠ 0 := by omega
    rw [Int.tdiv_eq_ediv (by nlinarith) (by omega)]
    simp only [zero_add]
    rw [Int.mul_comm, Int.mul_ediv_cancel_left _ (by omega)]
  · obtain ⟨htvne, hsh⟩ := hgen h0
    have hts0 : 0 < s.total_shares := lt_of_le_of_ne hts (Ne.symm h0)
    have htv0 : 0 < s.total_value := lt_of_le_of_ne htv (Ne.symm htvne)
    -- the minted shares price in at most `amount`
    have hkey : sh * s.total_value ≤ amount * s.total_shares := by
      rw [hsh, Int.tdiv_eq_ediv (mul_nonneg hamt.le hts) htv]
      exact Int.ediv_mul_le _ htvne
    have hshnn : 0 ≤ sh := by
      rw [hsh]
      exact Int.tdiv_nonneg (mul_nonneg hamt.le hts) htv
    have hden : 0 < s.total_shares + sh := by omega
    rw [hamt1, Int.tdiv_eq_ediv
      (mul_nonneg hshpos.le (by omega)) hden.le]
    calc sh * (s.total_value + amount) / (s.total_shares + sh)
        ≤ amount * (s.total_shares + sh) / (s.total_shares + sh) := by
          apply Int.ediv_le_ediv hden
          nlinarith
      _ = amount := Int.mul_ediv_cancel _ (by omega)

/-- C3 witness: deposit 1000 into the fresh vault, withdraw the 1000
minted shares, and get back exactly 1000 (at most the deposit). -/
theorem C3_deposit_withdraw_no_gain_witness :
    run_withdraw stgFixAfter 2 1000 =
      (.ok 1000, stgFixDrained,
        [Effect.transfer 10 0 2 1000, Effect.event "withdraw"]) ∧
    (1000 : Int) ≤ 1000 := by
  have hreach : Reachable stgFix := Reachable.init cfgFix 0 stgFix (by rfl)
  have hdep : run_deposit_with_token extFix stgFix 2 1000 10 0 =
      (.ok 1000, stgFixAfter, effsFixAfter) := by rfl
  have hwd : run_withdraw stgFixAfter 2 1000 =
      (.ok 1000, stgFixDrained,
        [Effect.transfer 10 0 2 1000, Effect.event "withdraw"]) := by rfl
  exact ⟨hwd,
    C3_deposit_withdraw_no_gain stgFix extFix 2 1000 0 cfgFix 10 [] 1000
      stgFixAfter effsFixAfter 1000 stgFixDrained
      [Effect.transfer 10 0 2 1000, Effect.event "withdraw"]
      hreach rfl rfl hdep hwd⟩

/-! ## C5 -/

/-- C5: for reserves `r_in > 0`, `0 < amount_out < r_out`, composing
`calculate_swap_input` (which rounds up by `+1`) with
`calculate_swap_output` never under-delivers: the forward formula
applied to the computed input yields at least the desired output. -/
theorem C5_swap_inverse_consistency
    (r_in r_out aout ain aout' : Int)
    (hrin : 0 < r_in) (haout : 0 < aout) (hlt : aout < r_out)
    (hin : calculate_swap_input r_in r_out aout = .ok ain)
    (hout : calculate_swap_output r_in r_out ain = .ok aout') :
    aout ≤ aout' := by
  -- decompose the inverse computation
  unfold calculate_swap_input at hin
  split at hin
  · exact Except.noConfusion hin
  split at hin
  · exact Except.noConfusion hin
  next hdrain =>
  split at hin
  · exact Except.noConfusion hin
  next numerator hnum =>
    split at hin
    · exact Except.noConfusion hin
    next denominator hden =>
      split at hin
      · exact Except.noConfusion hin
      next ain' hain =>
        injection hin with hin
        subst hin
        -- recover the arithmetic values
        rcases hm1 : checked_mul r_in aout with _ | p1
        · rw [hm1] at hnum
          exact Option.noConfusion hnum
        rw [hm1] at hnum
        simp only [Option.some_bind] at hnum
        obtain rfl := checked_mul_some hm1
        obtain rfl := checked_mul_some hnum
        rcases hm2 : checked_sub r_out aout with _ | p2
        · rw [hm2] at hden
          exact Option.noConfusion hden
        rw [hm2] at hden
        simp only [Option.some_bind] at hden
        obtain rfl := checked_sub_some hm2
        obtain rfl := checked_mul_some hden
        obtain rfl := checked_add_some hain
        -- the computed input, with its defining lower bound
        set n : Int := r_in * aout * 1000 with hn
        set d : Int := (r_out - aout) * 997 with hd
        have hdpos : 0 < d := by
          rw [hd]
          have : 0 < r_out - aout := by omega
          positivity
        have hnnn : 0 ≤ n := by
          rw [hn]
          positivity
        have hain_lb : n < (n.tdiv d + 1) * d := by
          rw [Int.tdiv_eq_ediv hnnn hdpos.le]
          exact Int.lt_ediv_add_one_mul_self n hdpos
        have hain_pos : 0 < n.tdiv d + 1 := by
          have := Int.tdiv_nonneg hnnn hdpos.le
          omega
        -- decompose the forward computation at that input
        unfold calculate_swap_output swap_output_math at hout
        split at hout
        · exact Except.noConfusion hout
        next hain0 =>
        split at hout
        · exact Except.noConfusion hout
        next aiwf haiwf =>
          split at hout
          · exact Except.noConfusion hout
          next num2 hnum2 =>
            split at hout
            · exact Except.noConfusion hout
            next den2 hden2 =>
              injection hout with hout
              subst hout
              rcases hm3 : checked_mul r_in 1000 with _ | p3
              · rw [hm3] at hden2
                exact Option.noConfusion hden2
              rw [hm3] at hden2
              simp only [Option.some_bind] at hden2
              obtain rfl := checked_mul_some haiwf
              obtain rfl := checked_mul_some hnum2
              obtain rfl := checked_mul_some hm3
              obtain rfl := checked_add_some hden2
              -- positivity of the forward denominator and numerator
              set a : Int := n.tdiv d + 1 with ha
              have hd2pos : 0 < r_in * 1000 + a * 997 := by
                nlinarith [hain_pos, hrin]
              have hn2nn : 0 ≤ a * 997 * r_out := by
                nlinarith [hain_pos, haout, hlt]
              rw [Int.tdiv_eq_ediv hn2nn hd2pos.le]
              rw [Int.le_ediv_iff_mul_le hd2pos]
              -- the core inequality, from n < a * d
              have hkey : r_in * aout * 1000 < a * ((r_out - aout) * 997) := by
                rw [← hn, ← hd]
                exact hain_lb
              nlinarith [hkey, haout.le, hain_pos.le]

/-- C5 witness: reserves `(1000, 1000)`, desired output 90: the inverse
computes input 100, and the forward formula returns exactly 90. -/
theorem C5_swap_inverse_consistency_witness :
    calculate_swap_input 1000 1000 90 = .ok 100 ∧
    calculate_swap_output 1000 1000 100 = .ok 90 ∧
    (90 : Int) ≤ 90 := by
  have h1 : calculate_swap_input 1000 1000 90 = .ok 100 := by rfl
  have h2 : calculate_swap_output 1000 1000 100 = .ok 90 := by rfl
  exact ⟨h1, h2,
    C5_swap_inverse_consistency 1000 1000 90 100 90
      (by decide) (by decide) (by decide) h1 h2⟩

/-! ## C6 -/

/-- C6: a rebalance-action execution whose every asset balance is within
the 1% tolerance `total_value / 100` of its target performs no swaps and
no state change: it succeeds emitting only the `reb_skip` log event.
Since it changes nothing, running it again under the same balances
yields the same no-op (idempotence at equilibrium). -/
theorem C6_rebalance_within_tolerance_noop
    (ext : ExtEnv) (bal : Address → Int) (cfg : VaultConfig)
    (rule : RebalanceRule) (assets : List Address) (total_value : Int)
    (router : Address) (total_allocation : Int) (targets : List Int)
    (hlen : rule.target_allocation.length = assets.length)
    (hsum : allocation_sum rule.target_allocation = some total_allocation)
    (hok : total_allocation = 1000000 ∨ total_allocation = 0)
    (hrouter : cfg.router_address = some router)
    (htargets : compute_targets total_value rule.target_allocation =
      some targets)
    (hwithin : ∀ p ∈ (assets.map bal).zip targets,
      (if p.1 > p.2 then p.1 - p.2 else p.2 - p.1) ≤
        total_value.tdiv 100) :
    execute_rebalance_action_with ext bal cfg rule assets total_value =
      .ok [Effect.event "reb_skip"] := by
  unfold execute_rebalance_action_with
  rw [if_neg (by omega), hsum]
  dsimp only
  rw [if_neg (by rcases hok with h | h <;> simp [h]), hrouter]
  dsimp only
  rw [htargets]
  dsimp only
  have hneeds : needs_rebalance (assets.map bal) targets
      (total_value.tdiv 100) = false := by
    unfold needs_rebalance
    rw [List.any_eq_false]
    intro p hp
    have := hwithin p hp
    simp only [decide_eq_true_eq]
    omega
  rw [hneeds]
  rfl

/-- C6 witness: two assets at exactly their 50/50 targets (500 each of
`total_value = 1000`): the rebalance action is a pure no-op. -/
theorem C6_rebalance_within_tolerance_noop_witness :
    execute_rebalance_action_with extFix balFix cfgTwoFix ruleHalfFix
      [10, 11] 1000 = .ok [Effect.event "reb_skip"] :=
  C6_rebalance_within_tolerance_noop extFix balFix cfgTwoFix ruleHalfFix
    [10, 11] 1000 3 1000000 [500, 500]
    (by decide) (by rfl) (Or.inl rfl) (by rfl) (by rfl) (by decide)

/-! ## C7 -/

/-- C7: depositing a token that differs from the base asset while no
router is configured fails with `RouterNotSet`, and the transaction
rollback leaves the storage unchanged with no observable transfer or
other effect. -/
theorem C7_deposit_no_router
    (ext : ExtEnv) (stg : Storage) (user : Address) (amount : Int)
    (tok : Address) (now : Nat) (cfg : VaultConfig) (base : Address)
    (rest : List Address)
    (hcfg : stg.config = some cfg) (hassets : cfg.assets = base :: rest)
    (hrouter : cfg.router_address = none) (htok : tok ≠ base)
    (hamt : 0 < amount) :
    run_deposit_with_token ext stg user amount tok now =
      (.error .RouterNotSet, stg, []) := by
  have hdep : deposit_with_token ext stg user amount tok now =
      .error .RouterNotSet := by
    unfold deposit_with_token
    rw [hcfg]
    simp only [Option.isNone_some, Bool.false_eq_true, if_false,
      if_neg (not_le.mpr hamt), hassets, List.head?_cons]
    rw [if_pos htok, hrouter]
  unfold run_deposit_with_token
  rw [hdep]

/-- C7 witness: depositing token 11 into the router-less vault whose
base asset is 10 fails with `RouterNotSet` and changes nothing. -/
theorem C7_deposit_no_router_witness :
    run_deposit_with_token extFix stgFix 2 1000 11 0 =
      (.error .RouterNotSet, stgFix, []) :=
  C7_deposit_no_router extFix stgFix 2 1000 11 0 cfgFix 10 []
    rfl rfl rfl (by decide) (by decide)

/-! ## C8 -/

/-- C8 counterexample: the claimed equivalence "time condition satisfied
iff `current_timestamp - last_rebalance ≥ threshold`" is false at
threshold `-1` (state `last_rebalance = 0`, current time 0): the code
casts the threshold to `u64` with wrapping, so `-1` becomes `2^64 - 1`
and the condition is not satisfied although `0 - 0 ≥ -1` holds.  It also
fails at threshold 0 with `last_rebalance = 5` and current time 0: the
code's `saturating_sub` yields elapsed 0 and the condition is satisfied
although `0 - 5 ≥ 0` is false. -/
theorem C8_time_condition_counterexample :
    (¬ (evaluate_time_condition emptyStorage ruleNegFix 0 = true ↔
        (0 : Int) - ((get_state emptyStorage).last_rebalance : Int) ≥
          ruleNegFix.threshold)) ∧
    (¬ (evaluate_time_condition stgLateFix ruleZeroFix 0 = true ↔
        (0 : Int) - ((get_state stgLateFix).last_rebalance : Int) ≥
          ruleZeroFix.threshold)) := by
  constructor <;> decide

/-- C8 amended: (1) for thresholds in `[0, 2^64)` the time condition is
satisfied iff `threshold ≤ max(current_timestamp - last_rebalance, 0)`
(the subtraction saturates at zero); (2) with a single rule
`{condition: time, threshold: 3600}` and `last_rebalance = T`,
`trigger_rebalance` at `T+3599` succeeds as a no-op with no state change
and at `T+3600` it executes, updating `last_rebalance` to `T+3600`. -/
theorem C8_time_trigger_amended :
    (∀ (stg : Storage) (rule : RebalanceRule) (now : Nat),
      0 ≤ rule.threshold → rule.threshold < 18446744073709551616 →
      (evaluate_time_condition stg rule now = true ↔
        rule.threshold ≤
          max ((now : Int) - ((get_state stg).last_rebalance : Int)) 0)) ∧
    (∀ (T : Nat) (stg : Storage) (cfg : VaultConfig)
       (ct ac : String) (ta : List Int) (s : VaultState) (ext : ExtEnv)
       (bal : Address → Int),
      stg.config = some cfg →
      cfg.rules = [{ condition_type := ct, threshold := 3600,
                     action := ac, target_allocation := ta }] →
      ct = "time" → ac = "hold" →
      stg.state = some s → s.last_rebalance = T → s.total_value ≠ 0 →
      trigger_rebalance ext bal stg (T + 3599) = .ok (stg, []) ∧
      trigger_rebalance ext bal stg (T + 3600) =
        .ok ({ stg with state := some { s with last_rebalance := T + 3600 } },
          [Effect.event "reb_start", Effect.event "rebalance"])) := by
  constructor
  · intro stg rule now h0 h1
    unfold evaluate_time_condition get_state
    rw [decide_eq_true_iff]
    unfold as_u64
    have hmod : rule.threshold % 18446744073709551616 = rule.threshold :=
      Int.emod_eq_of_lt h0 h1
    rw [hmod]
    omega
  · intro T stg cfg ct ac ta s ext bal hcfg hrules hct hac hs hlr htv
    subst hct
    subst hac
    have hcontains : strContains "time" "time" = true := by decide
    have heval : ∀ now : Nat, evaluate_time_condition stg
        { condition_type := "time", threshold := 3600, action := "hold",
          target_allocation := ta } now =
        decide (now - T ≥ 3600) := by
      intro now
      unfold evaluate_time_condition
      rw [hs]
      simp only [Option.getD_some, hlr]
      rfl
    have hsr : ∀ now : Nat, should_rebalance stg now =
        decide (now - T ≥ 3600) := by
      intro now
      unfold should_rebalance
      rw [hcfg]
      dsimp only
      rw [hrules]
      unfold evaluate_rules
      simp only [List.any_cons, List.any_nil, Bool.or_false]
      unfold evaluate_single_rule
      rw [hcontains]
      simp only [if_true]
      exact heval now
    constructor
    · -- T + 3599: the rule does not fire, success no-op
      unfold trigger_rebalance
      rw [hcfg]
      simp only [Option.isNone_some, Bool.false_eq_true, if_false]
      rw [if_pos]
      rw [hsr]
      simp only [decide_eq_true_eq]
      omega
    · -- T + 3600: the rule fires and `last_rebalance` is stamped
      unfold trigger_rebalance
      rw [hcfg]
      simp only [Option.isNone_some, Bool.false_eq_true, if_false]
      rw [if_neg]
      · rw [hs]
        dsimp only
        have hexec : execute_rebalance_only ext bal stg =
            .ok [Effect.event "reb_start"] := by
          unfold execute_rebalance_only
          rw [hcfg]
          dsimp only
          rw [hs]
          dsimp only
          rw [if_neg htv]
          rw [hrules]
          unfold rebalance_rules_loop
          have hne : ¬ (RebalanceRule.mk "time" 3600 "hold" ta).action =
              "rebalance" := by simp
          rw [if_neg hne]
          rfl
        rw [hexec]
        rfl
      · rw [hsr]
        simp only [decide_eq_true_eq]
        omega

/-- C8 witness: with `last_rebalance = 100` and threshold 3600, the time
condition holds at time 3700 (part 1 at a concrete input), and
`trigger_rebalance` is a no-op at 3699 while at 3700 it executes and
stamps `last_rebalance = 3700` (part 2 at a concrete input). -/
theorem C8_time_trigger_amended_witness :
    (evaluate_time_condition stgHourFix ruleHourFix 3700 = true ↔
      (3600 : Int) ≤
        max ((3700 : Int) - ((get_state stgHourFix).last_rebalance : Int))
          0) ∧
    trigger_rebalance extFix balFix stgHourFix 3699 = .ok (stgHourFix, []) ∧
    trigger_rebalance extFix balFix stgHourFix 3700 =
      .ok ({ stgHourFix with
              state := some { total_shares := 5, total_value := 5,
                              last_rebalance := 3700 } },
        [Effect.event "reb_start", Effect.event "rebalance"]) := by
  have h1 := C8_time_trigger_amended.1 stgHourFix ruleHourFix 3700
    (by decide) (by decide)
  have h2 := C8_time_trigger_amended.2 100 stgHourFix
    { cfgFix with rules := [ruleHourFix] } "time" "hold" []
    { total_shares := 5, total_value := 5, last_rebalance := 100 }
    extFix balFix rfl rfl rfl rfl rfl rfl (by decide)
  exact ⟨h1, h2.1, h2.2⟩

/-! ## C9 -/

theorem swap_via_pool_effects {ext : ExtEnv} {pool ft tt : Address}
    {ain minOut : Int} {res : Int × List Effect}
    (h : swap_via_pool ext pool ft tt ain minOut = .ok res) :
    ∃ a0 a1, res.2 = [Effect.poolSwap pool a0 a1
      current_contract_address] := by
  unfold swap_via_pool at h
  split at h
  · exact Except.noConfusion h
  dsimp only at h
  split at h
  · exact Except.noConfusion h
  next is0 hor =>
    split at h
    · exact Except.noConfusion h
    next aout hout =>
      split at h
      · exact Except.noConfusion h
      split at h
      · exact Except.noConfusion h
      next b hb =>
        injection h with h
        rw [← h]
        exact ⟨_, _, rfl⟩

theorem swap_via_router_effects {ext : ExtEnv} {router ft tt : Address}
    {ain minOut : Int} {res : Int × List Effect}
    (h : swap_via_router ext router ft tt ain minOut = .ok res) :
    ∃ pool a0 a1, res.2 = [Effect.poolSwap pool a0 a1
      current_contract_address] := by
  unfold swap_via_router at h
  split at h
  · exact Except.noConfusion h
  split at h
  · exact Except.noConfusion h
  next pool hpool =>
    obtain ⟨a0, a1, heff⟩ := swap_via_pool_effects h
    exact ⟨pool, a0, a1, heff⟩

/-- Successful deposits never carry a rebalance-executor invocation in
their trace: every rebalance execution logs the `reb_start` event first
(`execute_rebalance*` in `rebalance.rs`), and no deposit trace contains
it. -/
theorem deposit_effects_no_rebalance {ext : ExtEnv} {stg : Storage}
    {user : Address} {amount : Int} {tok : Address} {now : Nat} {sh : Int}
    {stg' : Storage} {effs : List Effect}
    (h : deposit_with_token ext stg user amount tok now =
      .ok (sh, stg', effs)) :
    ¬ (Effect.event "reb_start") ∈ effs := by
  unfold deposit_with_token at h
  split at h
  · exact Except.noConfusion h
  split at h
  · exact Except.noConfusion h
  dsimp only at h
  split at h
  · exact Except.noConfusion h
  next config heqc =>
    split at h
    · exact Except.noConfusion h
    next base' heqb =>
      split at h
      · split at h
        · exact Except.noConfusion h
        next router hrouter =>
          split at h
          · exact Except.noConfusion h
          next res hswap =>
            obtain ⟨_, _, _, _, _, heffq⟩ := deposit_finish_ok' h
            obtain ⟨pool, a0, a1, hres⟩ := swap_via_router_effects hswap
            rw [heffq, hres]
            simp
      · obtain ⟨_, _, _, _, _, heffq⟩ := deposit_finish_ok' h
        rw [heffq]
        simp

/-- C9 counterexample: a vault with an always-firing `rebalance` rule
(`{condition: time, threshold: 0}`); at time 777 a deposit of 1000
succeeds, the rule engine reports a rebalance is due, yet the deposit's
trace contains no rebalance-executor invocation (no `reb_start` event)
and `last_rebalance` remains 0 — no auto-rebalance is invoked as a side
effect of deposit, so the claim fails at this input. -/
theorem C9_no_auto_rebalance_counterexample :
    (run_deposit_with_token extFix stgRuleFix 2 1000 10 777).1 =
      .ok 1000 ∧
    should_rebalance stgRuleFix 777 = true ∧
    ¬ (Effect.event "reb_start") ∈
      (run_deposit_with_token extFix stgRuleFix 2 1000 10 777).2.2 ∧
    (get_state (run_deposit_with_token extFix stgRuleFix
      2 1000 10 777).2.1).last_rebalance = 0 := by
  refine ⟨rfl, rfl, by decide, rfl⟩

/-- C9 amended: `deposit_with_token` performs no auto-rebalance at all —
its trace never contains a rebalance-executor invocation (`reb_start`)
and it never touches `last_rebalance`; rebalancing happens only through
the `trigger_*`/`force_*` entrypoints.  Consequently no rebalance
failure can affect a deposit. -/
theorem C9_deposit_never_rebalances
    (ext : ExtEnv) (stg : Storage) (user : Address) (amount : Int)
    (tok : Address) (now : Nat) :
    ¬ (Effect.event "reb_start") ∈
      (run_deposit_with_token ext stg user amount tok now).2.2 ∧
    (run_deposit_with_token ext stg user amount tok now).2.1.state.map
        VaultState.last_rebalance =
      stg.state.map VaultState.last_rebalance := by
  rcases run_deposit_spec ext stg user amount tok now with
    ⟨e, _, hrun⟩ | ⟨sh, stg', effs, hdep, hrun⟩
  · rw [hrun]
    exact ⟨by simp, rfl⟩
  · rw [hrun]
    refine ⟨deposit_effects_no_rebalance hdep, ?_⟩
    obtain ⟨s, fin, hs, _, _, _, hstg'⟩ := deposit_ok_general hdep
    rw [hstg', hs]
    rfl

/-! ## C10 -/

/-- C10: the vault's custodied-balance read is a constant stub returning
0 for every token; consequently every stake rule whose computed
`stake_amount = ⌊total_value * threshold / 100_0000⌋` is positive makes
`execute_stake_action` fail with `InsufficientBalance` (either against
`total_value` or against the zero balance). -/
theorem C10_stake_always_insufficient :
    (∀ token : Address, get_vault_balance token = 0) ∧
    (∀ (ext : ExtEnv) (stg : Storage) (rule : RebalanceRule)
       (a : Address) (rest : List Address) (tv : Int) (now : Nat),
      0 ≤ tv → 0 ≤ rule.threshold →
      inI128 (tv * rule.threshold) = true →
      0 < tv * rule.threshold / 1000000 →
      execute_stake_action ext stg rule (a :: rest) tv now =
        .error .InsufficientBalance) := by
  constructor
  · intro token
    rfl
  · intro ext stg rule a rest tv now htv hth hrange hpos
    have hmul : checked_mul tv rule.threshold = some (tv * rule.threshold) := by
      unfold checked_mul
      rw [if_pos hrange]
    have hdiv : checked_div (tv * rule.threshold) 1000000 =
        some ((tv * rule.threshold).tdiv 1000000) := by
      unfold checked_div
      rw [if_neg (by omega)]
      rw [if_neg (by simp)]
    have htdiv : (tv * rule.threshold).tdiv 1000000 =
        tv * rule.threshold / 1000000 :=
      Int.tdiv_eq_ediv (mul_nonneg htv hth) (by omega)
    unfold execute_stake_action
    rw [if_neg (by simp)]
    rw [hmul]
    simp only [Option.some_bind]
    rw [hdiv]
    dsimp only
    by_cases hbig : (tv * rule.threshold).tdiv 1000000 > tv
    · rw [if_pos hbig]
    · rw [if_neg hbig]
      simp only [List.head?_cons]
      rw [if_pos]
      rw [htdiv]
      show 0 < tv * rule.threshold / 1000000
      exact hpos

/-- C10 witness: a 50% stake rule on `total_value = 1000` computes
`stake_amount = 500 > 0 = balance` and fails with
`InsufficientBalance`. -/
theorem C10_stake_always_insufficient_witness :
    get_vault_balance 10 = 0 ∧
    execute_stake_action extFix stgFix
      { condition_type := "apy", threshold := 500000, action := "stake",
        target_allocation := [] } [10] 1000 0 =
      .error .InsufficientBalance :=
  ⟨C10_stake_always_insufficient.1 10,
   C10_stake_always_insufficient.2 extFix stgFix
     { condition_type := "apy", threshold := 500000, action := "stake",
       target_allocation := [] } 10 [] 1000 0
     (by decide) (by decide) (by decide) (by decide)⟩

end Syft
